import Mathlib

/-!
Verification of the streaming function-level diff core of `compilecmp`
(`dashs.go` / its current variant in the repository, `main.go`).

Modelling conventions:
* Byte slices and strings are modelled as `List Char` (`Bytes`); the Go code
  treats them as opaque byte sequences compared for equality, so `Char`
  granularity is faithful at the level the code observes.
* Input streams are modelled at line granularity (the code reads them through
  `bufio.Scanner`, which yields lines with the newline stripped).
* `crypto/sha256` digests are modelled by the exact byte stream written to the
  hash (`hash.Write` calls concatenated).  The code only ever compares digests
  for equality (`bytes.Equal`), so this models the code faithfully up to
  SHA-256 collisions.
* Fatal paths (`log.Panic` via `check`, and Go runtime slice/index panics) are
  modelled with `Except ScanErr`.
* Go `int` is modelled as `Int` (sizes parsed by `strconv.Atoi` may be signed);
  no arithmetic in the modelled code can overflow 64 bits on its real inputs.
-/

abbrev Bytes := List Char

/-- Helper for `replaceAll` with a non-empty pattern: a positive first
argument skips the tail of an occurrence just replaced, so matching resumes
after it (Go replaces leftmost, non-overlapping occurrences). -/
def replaceAllAux (old new : Bytes) : Nat → Bytes → Bytes
  | _, [] => []
  | 0, c :: rest =>
    if old.isPrefixOf (c :: rest) then new ++ replaceAllAux old new (old.length - 1) rest
    else c :: replaceAllAux old new 0 rest
  | n + 1, _ :: rest => replaceAllAux old new n rest

/-- Model of Go `bytes.ReplaceAll(s, old, new)`: replaces all non-overlapping
leftmost occurrences of `old` in `s` by `new`; for empty `old` it inserts
`new` before every byte and after the last one (Go's documented behaviour). -/
def replaceAll (s old new : Bytes) : Bytes :=
  if old = [] then
    new ++ List.flatten (s.map (fun c => c :: new))
  else replaceAllAux old new 0 s

/-- Model of Go `strings.IndexByte` / `strings.Index` with a one-byte needle:
index of the leftmost occurrence of `c` in `s` (`none` models Go's `-1`). -/
def indexOfChar : Bytes → Char → Option Nat
  | [], _ => none
  | c :: rest, t => if c = t then some 0 else (indexOfChar rest t).map (· + 1)

/-- Model of Go `strings.Index(s, pat)`: index of the leftmost occurrence of
the substring `pat` in `s` (`none` models Go's `-1`). -/
def indexOfSub : Bytes → Bytes → Option Nat
  | s, pat =>
    if pat.isPrefixOf s then some 0
    else
      match s with
      | [] => none
      | _ :: rest => (indexOfSub rest pat).map (· + 1)

/-- Model of Go `strings.Contains`. -/
def containsSub (s pat : Bytes) : Bool :=
  (indexOfSub s pat).isSome

/-- Value of a non-empty all-digit string, `none` otherwise. -/
def digitsVal (cs : Bytes) : Option Nat :=
  if cs = [] then none
  else
    cs.foldl
      (fun acc c =>
        match acc with
        | none => none
        | some n => if c.isDigit then some (n * 10 + (c.toNat - 48)) else none)
      (some 0)

/-- Model of Go `strconv.Atoi`: optional sign followed by at least one digit.
(Go additionally fails on 64-bit range overflow; the sizes handled by the
modelled code are far below that bound.) -/
def goAtoi (s : Bytes) : Option Int :=
  match s with
  | '+' :: rest => (digitsVal rest).map (fun n => (n : Int))
  | '-' :: rest => (digitsVal rest).map (fun n => -(n : Int))
  | _ => (digitsVal s).map (fun n => (n : Int))

/-- The ways the scanner can abort: a Go runtime index panic (`b[0]` on an
empty slice), a Go runtime slice-bounds panic in `extractNameAndSize`, and the
`check(err)` → `log.Panic` path after a failed `strconv.Atoi`. -/
inductive ScanErr : Type
  | indexOutOfRange
  | sliceBounds
  | atoiFail
deriving DecidableEq

instance {ε α : Type} [DecidableEq ε] [DecidableEq α] : DecidableEq (Except ε α) :=
  fun a b =>
    match a, b with
    | Except.ok x, Except.ok y =>
      if h : x = y then isTrue (congrArg Except.ok h)
      else isFalse (fun hc => h (Except.ok.inj hc))
    | Except.error x, Except.error y =>
      if h : x = y then isTrue (congrArg Except.error h)
      else isFalse (fun hc => h (Except.error.inj hc))
    | Except.ok _, Except.error _ => isFalse (fun hc => Except.noConfusion hc)
    | Except.error _, Except.ok _ => isFalse (fun hc => Except.noConfusion hc)

/-- Association-list model of a Go `map`: lookup of key `k`. -/
def lookupFn {β : Type} (k : Bytes) : List (Bytes × β) → Option β
  | [] => none
  | kv :: rest => if kv.1 = k then some kv.2 else lookupFn k rest

/-- Association-list model of Go `delete(m, k)` (keys are unique in a Go map,
so removing the first occurrence is exact). -/
def eraseKey {β : Type} (k : Bytes) : List (Bytes × β) → List (Bytes × β)
  | [] => []
  | kv :: rest => if kv.1 = k then rest else kv :: eraseKey k rest

/-- Association-list model of Go `m[k] = v`: replace the existing entry for
`k`, or append a fresh one. -/
def mapInsert {β : Type} (k : Bytes) (v : β) : List (Bytes × β) → List (Bytes × β)
  | [] => [(k, v)]
  | kv :: rest => if kv.1 = k then (k, v) :: rest else kv :: mapInsert k v rest

/-- The keys of an association list. -/
def keysOf {β : Type} (l : List (Bytes × β)) : List Bytes :=
  l.map Prod.fst

/-- One compiled function inside one package snapshot (`stextFunc` in
`dashs.go`; the unused `body` field is omitted). -/
structure stextFunc where
  textsize : Int
  bodyhash : Bytes
deriving DecidableEq

/-- Model of `extractNameAndSize` (`dashs.go`), faithful to the Go slicing:
`stext[:i]` with `i = -1` panics; when `" size="` is absent,
`stext[i+len(" size="):]` becomes `stext[5:]`, which only panics when the
string is shorter than 5 bytes; `check(err)` after `strconv.Atoi` is the
`atoiFail` outcome. -/
def extractNameAndSize (stext : Bytes) : Except ScanErr (Bytes × Int) :=
  match indexOfChar stext ' ' with
  | none => Except.error ScanErr.sliceBounds
  | some i =>
    let name := stext.take i
    let rest1 := stext.drop i
    let rest2? : Except ScanErr Bytes :=
      match indexOfSub rest1 (" size=").toList with
      | some j => Except.ok (rest1.drop (j + (" size=").toList.length))
      | none =>
        if (" size=").toList.length - 1 ≤ rest1.length then
          Except.ok (rest1.drop ((" size=").toList.length - 1))
        else Except.error ScanErr.sliceBounds
    match rest2? with
    | Except.error e => Except.error e
    | Except.ok rest2 =>
      match indexOfChar rest2 ' ' with
      | none => Except.error ScanErr.sliceBounds
      | some k =>
        match goAtoi (rest2.take k) with
        | none => Except.error ScanErr.atoiFail
        | some n => Except.ok (name, n)

/-- One in-progress package accumulator (`pkgScanner` in `dashs.go`).
`Hash` is the byte stream written to the SHA-256 digest so far, `stext` the
pending summary-header line. -/
structure pkgScanner where
  Name : Bytes
  Funcs : List (Bytes × stextFunc)
  Hash : Bytes
  stext : Bytes
deriving DecidableEq

/-- Model of `(*pkgScanner).flush`: if the pending header line is non-empty
and contains `" STEXT "`, record the function; always reset the digest and the
pending header. -/
def pkgScanner.flush (s : pkgScanner) : Except ScanErr pkgScanner :=
  if s.stext ≠ [] ∧ containsSub s.stext (" STEXT ").toList then
    match extractNameAndSize s.stext with
    | Except.error e => Except.error e
    | Except.ok nv =>
      Except.ok { s with
        Funcs := mapInsert nv.1 { textsize := nv.2, bodyhash := s.Hash } s.Funcs,
        Hash := [], stext := [] }
  else
    Except.ok { s with Hash := [], stext := [] }

/-- Model of `(*pkgScanner).ProcessLine`: the Go code reads `b[0]` without a
length guard, so an empty line is the `indexOutOfRange` panic; a non-indented
line flushes the previous function and becomes the pending header; an
indented line is written to the digest followed by a newline. -/
def pkgScanner.ProcessLine (s : pkgScanner) (b : Bytes) : Except ScanErr pkgScanner :=
  match b with
  | [] => Except.error ScanErr.indexOutOfRange
  | c :: _ =>
    if c ≠ '\t' then
      match s.flush with
      | Except.error e => Except.error e
      | Except.ok s' => Except.ok { s' with stext := b }
    else
      Except.ok { s with Hash := s.Hash ++ b ++ ['\n'] }

/-- The loop body of `scanDashS` over the (newline-stripped) input lines:
empty lines are skipped; a line starting with `"# "` flushes and emits the
package in progress and starts a fresh accumulator; any other line is fed to
the current accumulator after the per-build sha token is replaced by `"SHA"`.
`out` is the sequence sent over the channel, in order. -/
def scanLines (sha : Bytes) : List Bytes → Option pkgScanner → List pkgScanner →
    Except ScanErr (List pkgScanner)
  | [], _, out => Except.ok out
  | b :: rest, cur, out =>
    if b = [] then scanLines sha rest cur out
    else if b.take 2 = ['#', ' '] then
      match cur with
      | some s =>
        match s.flush with
        | Except.error e => Except.error e
        | Except.ok s' =>
          scanLines sha rest (some { Name := b.drop 2, Funcs := [], Hash := [], stext := [] })
            (out ++ [s'])
      | none =>
        scanLines sha rest (some { Name := b.drop 2, Funcs := [], Hash := [], stext := [] }) out
    else
      match cur with
      | some s =>
        match s.ProcessLine (replaceAll b sha ("SHA").toList) with
        | Except.error e => Except.error e
        | Except.ok s' => scanLines sha rest (some s') out
      | none => scanLines sha rest cur out

/-- Model of `scanDashS`: the code appends `"\n# EOF\n"` to the raw stream
before line-splitting, which at line granularity appends at most one empty
line and the line `"# EOF"`; the former is skipped, the latter flushes the
final real package. -/
def scanDashS (sha : Bytes) (lines : List Bytes) : Except ScanErr (List pkgScanner) :=
  scanLines sha (lines ++ [[], ("# EOF").toList]) none []

/-- The values the `-fn` flag accepts (the `switch *flagFn` in `main.go`;
anything else prints the help text and exits). -/
def acceptedFnModes : List String :=
  ["", "all", "changed", "smaller", "bigger", "stats"]

/-- The ANSI colour constant `ansiFgRed` of `main.go` (function grew). -/
def ansiFgRed : String := "\x1b[31m"

/-- The ANSI colour constant `ansiFgGreen` of `main.go` (function shrank). -/
def ansiFgGreen : String := "\x1b[32m"

/-- One console line produced by the per-package diff loop of
`compareFuncReaders`.  Each constructor corresponds to one distinct print
statement with its arguments, so two distinct values render to distinct
bytes. -/
inductive ReportLine : Type
  | header (pkg : Bytes)
  | deleted (name : Bytes)
  | inserted (name : Bytes)
  | changedSame (name : Bytes)
  | changedSize (name : Bytes) (before after : Int) (color : String)
deriving DecidableEq

/-- Model of `strings.TrimPrefix(name, "\"\".")` in the changed-size print. -/
def dropAnonQualifier (name : Bytes) : Bytes :=
  if ('"' :: '"' :: '.' :: []).isPrefixOf name then name.drop 3 else name

/-- The per-function body of the first `range aPkg.Funcs` loop of
`compareFuncReaders`, as the optional line it prints for one before-side
function: `DELETED` when absent on the after side (except in stats mode);
nothing when the body hashes agree; `changedSame` only in mode `"all"` when
only the hash changed; otherwise a size-change line whose suppression tests
compare the mode against the literals `"better"` and `"worse"` exactly as the
source does. -/
def funcALine (mode : String) (bFuncs : List (Bytes × stextFunc)) (name : Bytes)
    (asf : stextFunc) : Option ReportLine :=
  match lookupFn name bFuncs with
  | none => if mode = "stats" then none else some (ReportLine.deleted name)
  | some bsf =>
    if asf.bodyhash = bsf.bodyhash then none
    else if asf.textsize = bsf.textsize then
      if mode = "all" then some (ReportLine.changedSame name) else none
    else if asf.textsize < bsf.textsize then
      if mode = "better" ∨ mode = "stats" then none
      else some (ReportLine.changedSize (dropAnonQualifier name) asf.textsize bsf.textsize ansiFgRed)
    else
      if mode = "worse" ∨ mode = "stats" then none
      else some (ReportLine.changedSize (dropAnonQualifier name) asf.textsize bsf.textsize ansiFgGreen)

/-- The mutable state of one iteration of the diff loop: the after-side map
(entries are deleted as they are matched), the lines printed so far, and the
running totals `aTot`, `bTot`. -/
structure DiffState where
  bRem : List (Bytes × stextFunc)
  lines : List ReportLine
  aTot : Int
  bTot : Int
deriving DecidableEq

/-- One step of the first `range aPkg.Funcs` loop of `compareFuncReaders` for
the entry `nv`: add its size to `aTot`; print via `funcALine`; when the name
is matched on the after side, delete it there and add its size to `bTot`. -/
def diffStepA (mode : String) (st : DiffState) (nv : Bytes × stextFunc) : DiffState :=
  { bRem :=
      match lookupFn nv.1 st.bRem with
      | none => st.bRem
      | some _ => eraseKey nv.1 st.bRem
    lines := st.lines ++ (funcALine mode st.bRem nv.1 nv.2).toList
    aTot := st.aTot + nv.2.textsize
    bTot := st.bTot +
      match lookupFn nv.1 st.bRem with
      | none => 0
      | some bsf => bsf.textsize }

/-- Both function loops of `compareFuncReaders` for one matched pair: the
first loop over the before-side functions, then the `INSERTED` loop over the
after-side functions that were not matched (and hence not deleted), which are
printed except in stats mode and always counted into `bTot`.  `aFuncs` and
`bFuncs` carry the iteration order of the two Go maps. -/
def diffPairCore (mode : String) (aFuncs bFuncs : List (Bytes × stextFunc)) : DiffState :=
  let st := aFuncs.foldl (diffStepA mode) { bRem := bFuncs, lines := [], aTot := 0, bTot := 0 }
  { st with
    lines := st.lines ++ st.bRem.filterMap
      (fun kv => if mode = "stats" then none else some (ReportLine.inserted kv.1)),
    bTot := st.bTot + (st.bRem.map (fun kv => kv.2.textsize)).sum }

/-- The console output and totals of `compareFuncReaders` for one matched
package pair. -/
structure DiffOut where
  lines : List ReportLine
  aTot : Int
  bTot : Int
deriving DecidableEq

/-- One matched pair through the Diff Reporter (`compareFuncReaders` body,
after a pair is matched): the lazily printed package header appears exactly
once, before the first emitted line, and not at all when no line is
emitted. -/
def diffPair (mode : String) (pkg : Bytes) (aFuncs bFuncs : List (Bytes × stextFunc)) :
    DiffOut :=
  let st := diffPairCore mode aFuncs bFuncs
  { lines := if st.lines = [] then [] else ReportLine.header pkg :: st.lines,
    aTot := st.aTot,
    bTot := st.bTot }

/-- One row printed by the Size Aggregator (`filesizes` in `main.go`).  The
percentage is the exact rational value of the Go expression
`100*float64(after)/float64(before)-100`. -/
structure SizeRow where
  name : Bytes
  before : Int
  after : Int
  delta : Int
  pct : ℚ
deriving DecidableEq

/-- The Size Aggregator state (`filesizes` in `main.go`); `rows` is the
sequence of per-file rows written to the tab writer. -/
structure filesizes where
  totbefore : Int
  totafter : Int
  haschange : Bool
  rows : List SizeRow
deriving DecidableEq

/-- Model of `(*filesizes).add`: a zero-valued side drops the row entirely;
otherwise both sizes join the running totals, and a row is written only when
the sizes differ. -/
def filesizes.add (s : filesizes) (name : Bytes) (beforeSize afterSize : Int) : filesizes :=
  if beforeSize = 0 ∨ afterSize = 0 then s
  else
    let s' := { s with totbefore := s.totbefore + beforeSize,
                       totafter := s.totafter + afterSize }
    if beforeSize = afterSize then s'
    else { s' with
      haschange := true,
      rows := s'.rows ++ [{ name := name, before := beforeSize, after := afterSize,
                            delta := afterSize - beforeSize,
                            pct := 100 * (afterSize : ℚ) / (beforeSize : ℚ) - 100 }] }

/-- One arrival on one of the two channels feeding the merge-join loop of
`compareFuncReaders` (`aChan` is the before side, `bChan` the after side). -/
inductive JEvent : Type
  | fromA (p : pkgScanner)
  | fromB (p : pkgScanner)
deriving DecidableEq

/-- The state of the merge-join loop: the two pending maps and the matched
pairs in the order they were processed. -/
structure JoinState where
  aPkgs : List (Bytes × pkgScanner)
  bPkgs : List (Bytes × pkgScanner)
  matched : List (pkgScanner × pkgScanner)
deriving DecidableEq

/-- One iteration of the `select` loop of `compareFuncReaders`: a record
whose name is already pending on the opposite side is matched with it (and
the pending entry deleted); otherwise it is stored in its own side's pending
map. -/
def joinStep (st : JoinState) (e : JEvent) : JoinState :=
  match e with
  | JEvent.fromA p =>
    match lookupFn p.Name st.bPkgs with
    | some q => { st with bPkgs := eraseKey p.Name st.bPkgs, matched := st.matched ++ [(p, q)] }
    | none => { st with aPkgs := mapInsert p.Name p st.aPkgs }
  | JEvent.fromB p =>
    match lookupFn p.Name st.aPkgs with
    | some q => { st with aPkgs := eraseKey p.Name st.aPkgs, matched := st.matched ++ [(q, p)] }
    | none => { st with bPkgs := mapInsert p.Name p st.bPkgs }

/-- The whole merge-join loop over one interleaved arrival sequence, from
empty pending maps. -/
def runJoin (events : List JEvent) : JoinState :=
  events.foldl joinStep { aPkgs := [], bPkgs := [], matched := [] }

/-- `IsInterleaving as bs ev`: `ev` is one possible interleaving of the
before-side package stream `as` and the after-side package stream `bs`, i.e.
one possible order in which the `select` loop can observe the two channels. -/
inductive IsInterleaving : List pkgScanner → List pkgScanner → List JEvent → Prop where
  | nil : IsInterleaving [] [] []
  | consA {p : pkgScanner} {as bs : List pkgScanner} {ev : List JEvent} :
      IsInterleaving as bs ev → IsInterleaving (p :: as) bs (JEvent.fromA p :: ev)
  | consB {p : pkgScanner} {as bs : List pkgScanner} {ev : List JEvent} :
      IsInterleaving as bs ev → IsInterleaving as (p :: bs) (JEvent.fromB p :: ev)

/-- The names of a list of package records. -/
def names (l : List pkgScanner) : List Bytes :=
  l.map pkgScanner.Name

/-- The canonical value of the before-side pending map once the records `dA`
have arrived on the before side and `dB` on the after side. -/
def canonA (dA dB : List pkgScanner) : List (Bytes × pkgScanner) :=
  (dA.filter (fun p => decide (p.Name ∉ names dB))).map (fun p => (p.Name, p))

/-- The canonical value of the after-side pending map. -/
def canonB (dA dB : List pkgScanner) : List (Bytes × pkgScanner) :=
  (dB.filter (fun q => decide (q.Name ∉ names dA))).map (fun q => (q.Name, q))

/-- The canonical multiset of matched pairs: every before-side record matched
with the first after-side record of the same name. -/
def canonMatched (dA dB : List pkgScanner) : List (pkgScanner × pkgScanner) :=
  dA.filterMap (fun p => (dB.find? (fun q => decide (q.Name = p.Name))).map (fun q => (p, q)))

/-- `GoodJoin dA dB st`: the join state reached after the arrivals `dA`, `dB`
has the canonical pending maps, and its matched pairs are the canonical ones
up to processing order. -/
abbrev GoodJoin (dA dB : List pkgScanner) (st : JoinState) : Prop :=
  st.aPkgs = canonA dA dB ∧ st.bPkgs = canonB dA dB ∧ st.matched.Perm (canonMatched dA dB)

/-- The total text size of an association list of function records. -/
def sizeSum (l : List (Bytes × stextFunc)) : Int :=
  (l.map (fun kv => kv.2.textsize)).sum

/-- The after-side functions left over once every before-side name has been
matched (and deleted): exactly the entries whose name is absent on the before
side. -/
def bLeftover (aFuncs bFuncs : List (Bytes × stextFunc)) : List (Bytes × stextFunc) :=
  bFuncs.filter (fun kv => (lookupFn kv.1 aFuncs).isNone)

/-- The sequence of per-function lines of one matched pair, before the lazy
header: the before-side loop in iteration order, then the leftover
`INSERTED` entries in iteration order. -/
def classifyLines (mode : String) (aFuncs bFuncs : List (Bytes × stextFunc)) :
    List ReportLine :=
  aFuncs.filterMap (fun nv => funcALine mode bFuncs nv.1 nv.2)
    ++ (bLeftover aFuncs bFuncs).filterMap
        (fun kv => if mode = "stats" then none else some (ReportLine.inserted kv.1))

theorem lookupFn_eq_none {β : Type} {k : Bytes} {l : List (Bytes × β)} :
    lookupFn k l = none ↔ k ∉ keysOf l := by
  induction l with
  | nil => simp [lookupFn, keysOf]
  | cons kv rest ih =>
    by_cases h : kv.1 = k
    · constructor
      · intro hc
        simp only [lookupFn, if_pos h] at hc
        exact Option.noConfusion hc
      · intro hc
        exact absurd (by rw [← h]; exact List.mem_cons_self _ _) hc
    · simp only [lookupFn, if_neg h, keysOf, List.map_cons, List.mem_cons]
      rw [ih]
      have h' : ¬ k = kv.1 := fun hc => h hc.symm
      simp only [keysOf]
      tauto

theorem lookupFn_mem {β : Type} {k : Bytes} {v : β} {l : List (Bytes × β)}
    (h : lookupFn k l = some v) : (k, v) ∈ l := by
  induction l with
  | nil => simp [lookupFn] at h
  | cons kv rest ih =>
    by_cases hk : kv.1 = k
    · simp only [lookupFn, if_pos hk, Option.some.injEq] at h
      have hkv : kv = (k, v) := Prod.ext hk h
      rw [hkv]
      exact List.mem_cons_self _ _
    · simp only [lookupFn, if_neg hk] at h
      exact List.mem_cons_of_mem _ (ih h)

theorem lookupFn_filter_ne {β : Type} {m n : Bytes} (l : List (Bytes × β)) (h : m ≠ n) :
    lookupFn m (l.filter (fun kv => !decide (kv.1 = n))) = lookupFn m l := by
  induction l with
  | nil => simp
  | cons kv rest ih =>
    by_cases hn : kv.1 = n
    · have hm : kv.1 ≠ m := fun hc => h (by rw [← hc]; exact hn)
      rw [List.filter_cons, if_neg (by simp [hn])]
      rw [ih]
      simp only [lookupFn, if_neg hm]
    · rw [List.filter_cons, if_pos (by simp [hn])]
      by_cases hm : kv.1 = m
      · simp only [lookupFn, if_pos hm]
      · simp only [lookupFn, if_neg hm]
        exact ih

theorem filter_ne_of_lookup_none {β : Type} {n : Bytes} {l : List (Bytes × β)}
    (h : lookupFn n l = none) : l.filter (fun kv => !decide (kv.1 = n)) = l := by
  rw [List.filter_eq_self]
  intro kv hmem
  have hk : n ∉ keysOf l := lookupFn_eq_none.mp h
  simp only [Bool.not_eq_eq_eq_not, Bool.not_true, decide_eq_false_iff_not]
  intro hc
  exact hk (by rw [← hc]; exact List.mem_map_of_mem Prod.fst hmem)

theorem eraseKey_eq_filter {β : Type} {n : Bytes} {l : List (Bytes × β)}
    (h : (keysOf l).Nodup) : eraseKey n l = l.filter (fun kv => !decide (kv.1 = n)) := by
  induction l with
  | nil => simp [eraseKey]
  | cons kv rest ih =>
    simp only [keysOf, List.map_cons, List.nodup_cons] at h
    by_cases hn : kv.1 = n
    · have hnone : lookupFn n rest = none := by
        rw [lookupFn_eq_none, ← hn]
        exact fun hc => h.1 hc
      rw [List.filter_cons, if_neg (by simp [hn])]
      simp only [eraseKey, if_pos hn]
      exact (filter_ne_of_lookup_none hnone).symm
    · rw [List.filter_cons, if_pos (by simp [hn])]
      simp only [eraseKey, if_neg hn]
      rw [ih h.2]

theorem keysOf_filter_nodup {β : Type} {l : List (Bytes × β)} (p : Bytes × β → Bool)
    (h : (keysOf l).Nodup) : (keysOf (l.filter p)).Nodup :=
  List.Nodup.sublist (List.Sublist.map Prod.fst (List.filter_sublist l)) h

theorem mapInsert_of_not_mem {β : Type} {k : Bytes} {v : β} {l : List (Bytes × β)}
    (h : k ∉ keysOf l) : mapInsert k v l = l ++ [(k, v)] := by
  induction l with
  | nil => simp [mapInsert]
  | cons kv rest ih =>
    simp only [keysOf, List.map_cons, List.mem_cons] at h
    push_neg at h
    have h1 : kv.1 ≠ k := fun hc => h.1 hc.symm
    have h2 : k ∉ keysOf rest := h.2
    simp [mapInsert, h1, ih h2]

theorem sizeSum_split_of_lookup_some {n : Bytes} {v : stextFunc}
    {l : List (Bytes × stextFunc)} (hnd : (keysOf l).Nodup)
    (h : lookupFn n l = some v) :
    sizeSum l = v.textsize + sizeSum (l.filter (fun kv => !decide (kv.1 = n))) := by
  induction l with
  | nil => simp [lookupFn] at h
  | cons kv rest ih =>
    simp only [keysOf, List.map_cons, List.nodup_cons] at hnd
    by_cases hn : kv.1 = n
    · simp only [lookupFn, if_pos hn, Option.some.injEq] at h
      have hnone : lookupFn n rest = none := by
        rw [lookupFn_eq_none, ← hn]
        exact fun hc => hnd.1 hc
      rw [List.filter_cons, if_neg (by simp [hn])]
      rw [filter_ne_of_lookup_none hnone, ← h]
      rfl
    · simp only [lookupFn, if_neg hn] at h
      have hrec := ih hnd.2 h
      rw [List.filter_cons, if_pos (by simp [hn])]
      simp only [sizeSum, List.map_cons, List.sum_cons] at hrec ⊢
      omega

theorem foldA_char (mode : String) (aRest : List (Bytes × stextFunc)) :
    ∀ (st : DiffState), (keysOf aRest).Nodup → (keysOf st.bRem).Nodup →
      aRest.foldl (diffStepA mode) st =
        { bRem := st.bRem.filter (fun kv => (lookupFn kv.1 aRest).isNone),
          lines := st.lines ++ aRest.filterMap (fun nv => funcALine mode st.bRem nv.1 nv.2),
          aTot := st.aTot + (aRest.map (fun nv => nv.2.textsize)).sum,
          bTot := st.bTot + sizeSum st.bRem
                  - sizeSum (st.bRem.filter (fun kv => (lookupFn kv.1 aRest).isNone)) } := by
  induction aRest with
  | nil =>
    intro st _ _
    have hf : st.bRem.filter
        (fun kv => (lookupFn kv.1 ([] : List (Bytes × stextFunc))).isNone) = st.bRem := by
      rw [List.filter_eq_self]
      intro kv _
      simp [lookupFn]
    simp only [List.foldl_nil, List.filterMap_nil, List.map_nil, List.sum_nil, List.append_nil,
      hf]
    cases st with
    | mk bRem lines aTot bTot =>
      rw [DiffState.mk.injEq]
      dsimp only
      refine ⟨rfl, rfl, by omega, by omega⟩
  | cons nv rest ih =>
    intro st hA hB
    simp only [keysOf, List.map_cons, List.nodup_cons] at hA
    have hAfresh : nv.1 ∉ keysOf rest := hA.1
    have hArest : (keysOf rest).Nodup := hA.2
    have F1 : (diffStepA mode st nv).bRem = st.bRem.filter (fun kv => !decide (kv.1 = nv.1)) := by
      cases hl : lookupFn nv.1 st.bRem with
      | none =>
        have hid : (diffStepA mode st nv).bRem = st.bRem := by simp [diffStepA, hl]
        rw [hid, filter_ne_of_lookup_none hl]
      | some bsf => simp [diffStepA, hl, eraseKey_eq_filter hB]
    have F2 : (keysOf (diffStepA mode st nv).bRem).Nodup := by
      rw [F1]
      exact keysOf_filter_nodup _ hB
    rw [List.foldl_cons, ih (diffStepA mode st nv) hArest F2]
    have E1 : (diffStepA mode st nv).bRem.filter (fun kv => (lookupFn kv.1 rest).isNone)
        = st.bRem.filter (fun kv => (lookupFn kv.1 (nv :: rest)).isNone) := by
      rw [F1, List.filter_filter]
      apply List.filter_congr
      intro kv _
      by_cases hk : nv.1 = kv.1
      · simp [lookupFn, hk]
      · have hk' : ¬ kv.1 = nv.1 := fun hc => hk hc.symm
        simp [lookupFn, hk, hk']
    have E2 : (diffStepA mode st nv).lines
          ++ rest.filterMap (fun x => funcALine mode (diffStepA mode st nv).bRem x.1 x.2)
        = st.lines ++ (nv :: rest).filterMap (fun x => funcALine mode st.bRem x.1 x.2) := by
      have hcong : rest.filterMap (fun x => funcALine mode (diffStepA mode st nv).bRem x.1 x.2)
          = rest.filterMap (fun x => funcALine mode st.bRem x.1 x.2) := by
        apply List.filterMap_congr
        intro x hx
        have hxne : x.1 ≠ nv.1 := by
          intro hc
          exact hAfresh (by rw [← hc]; exact List.mem_map_of_mem Prod.fst hx)
        have hlk : lookupFn x.1 (diffStepA mode st nv).bRem = lookupFn x.1 st.bRem := by
          rw [F1]
          exact lookupFn_filter_ne st.bRem hxne
        simp only [funcALine, hlk]
      have hlines : (diffStepA mode st nv).lines
          = st.lines ++ (funcALine mode st.bRem nv.1 nv.2).toList := rfl
      rw [hcong, hlines, List.filterMap_cons]
      cases funcALine mode st.bRem nv.1 nv.2 with
      | none => simp
      | some y => simp
    have E4 : (diffStepA mode st nv).bTot + sizeSum (diffStepA mode st nv).bRem
        = st.bTot + sizeSum st.bRem := by
      have hbtot : (diffStepA mode st nv).bTot = st.bTot +
          match lookupFn nv.1 st.bRem with
          | none => 0
          | some bsf => bsf.textsize := rfl
      cases hl : lookupFn nv.1 st.bRem with
      | none =>
        have hd : (diffStepA mode st nv).bTot = st.bTot := by
          simp [diffStepA, hl]
        rw [hd, F1, filter_ne_of_lookup_none hl]
      | some bsf =>
        have hd : (diffStepA mode st nv).bTot = st.bTot + bsf.textsize := by
          simp [diffStepA, hl]
        rw [hd, F1]
        have := sizeSum_split_of_lookup_some hB hl
        omega
    rw [DiffState.mk.injEq]
    refine ⟨E1, E2, ?_, ?_⟩
    · have : (diffStepA mode st nv).aTot = st.aTot + nv.2.textsize := rfl
      rw [this]
      simp only [List.map_cons, List.sum_cons]
      omega
    · rw [E1]
      have h4 := E4
      omega

theorem diffPairCore_char (mode : String) (aFuncs bFuncs : List (Bytes × stextFunc))
    (ha : (keysOf aFuncs).Nodup) (hb : (keysOf bFuncs).Nodup) :
    diffPairCore mode aFuncs bFuncs =
      { bRem := bLeftover aFuncs bFuncs,
        lines := classifyLines mode aFuncs bFuncs,
        aTot := (aFuncs.map (fun nv => nv.2.textsize)).sum,
        bTot := sizeSum bFuncs } := by
  unfold diffPairCore
  rw [foldA_char mode aFuncs { bRem := bFuncs, lines := [], aTot := 0, bTot := 0 } ha hb]
  dsimp only
  rw [DiffState.mk.injEq]
  refine ⟨rfl, ?_, ?_, ?_⟩
  · simp [classifyLines, bLeftover]
  · omega
  · have hss : ((bFuncs.filter (fun kv => (lookupFn kv.1 aFuncs).isNone)).map
          (fun kv => kv.2.textsize)).sum
        = sizeSum (bFuncs.filter (fun kv => (lookupFn kv.1 aFuncs).isNone)) := rfl
    omega

theorem diffPair_char (mode : String) (pkg : Bytes) (aFuncs bFuncs : List (Bytes × stextFunc))
    (ha : (keysOf aFuncs).Nodup) (hb : (keysOf bFuncs).Nodup) :
    diffPair mode pkg aFuncs bFuncs =
      { lines := if classifyLines mode aFuncs bFuncs = [] then []
                 else ReportLine.header pkg :: classifyLines mode aFuncs bFuncs,
        aTot := (aFuncs.map (fun nv => nv.2.textsize)).sum,
        bTot := sizeSum bFuncs } := by
  unfold diffPair
  rw [diffPairCore_char mode aFuncs bFuncs ha hb]

theorem lookupFn_of_mem_nodup {β : Type} {k : Bytes} {v : β} {l : List (Bytes × β)}
    (hnd : (keysOf l).Nodup) (hmem : (k, v) ∈ l) : lookupFn k l = some v := by
  induction l with
  | nil => cases hmem
  | cons kv rest ih =>
    simp only [keysOf, List.map_cons, List.nodup_cons] at hnd
    rcases List.mem_cons.mp hmem with hkv | hkv
    · rw [← hkv]
      simp [lookupFn]
    · have hk : kv.1 ≠ k := by
        intro hc
        exact hnd.1 (by rw [hc]; exact List.mem_map_of_mem Prod.fst hkv)
      simp only [lookupFn, if_neg hk]
      exact ih hnd.2 hkv

theorem filterMap_eq_filterMap_filter {α β : Type} {l : List α} {p : α → Bool}
    {f : α → Option β} (h : ∀ x ∈ l, p x = false → f x = none) :
    l.filterMap f = (l.filter p).filterMap f := by
  induction l with
  | nil => rfl
  | cons a rest ih =>
    have hrest : ∀ x ∈ rest, p x = false → f x = none :=
      fun x hx => h x (List.mem_cons_of_mem _ hx)
    cases hp : p a with
    | false =>
      rw [List.filter_cons, if_neg (by simp [hp]), List.filterMap_cons,
        h a (List.mem_cons_self _ _) hp]
      exact ih hrest
    | true =>
      rw [List.filter_cons, if_pos (by simp [hp]), List.filterMap_cons, List.filterMap_cons]
      cases f a with
      | none => exact ih hrest
      | some y => rw [ih hrest]

/-- C1: for a function name present on both sides of a matched pair with
byte-equal body hashes, `compareFuncReaders` prints no line for it under any
mode (the loop `continue`s before any mode test), yet its before and after
text sizes still enter `aTot` and `bTot`: removing the pair from both maps
leaves every report line unchanged and decreases the totals by exactly the
two sizes. -/
theorem c1_unchanged_never_shown_still_counted
    (mode : String) (pkg n : Bytes) (asf bsf : stextFunc)
    (aFuncs bFuncs : List (Bytes × stextFunc))
    (ha : (keysOf aFuncs).Nodup) (hb : (keysOf bFuncs).Nodup)
    (hma : lookupFn n aFuncs = some asf) (hmb : lookupFn n bFuncs = some bsf)
    (hh : asf.bodyhash = bsf.bodyhash) :
    (diffPair mode pkg aFuncs bFuncs).lines
      = (diffPair mode pkg (eraseKey n aFuncs) (eraseKey n bFuncs)).lines
    ∧ (diffPair mode pkg aFuncs bFuncs).aTot
      = (diffPair mode pkg (eraseKey n aFuncs) (eraseKey n bFuncs)).aTot + asf.textsize
    ∧ (diffPair mode pkg aFuncs bFuncs).bTot
      = (diffPair mode pkg (eraseKey n aFuncs) (eraseKey n bFuncs)).bTot + bsf.textsize := by
  rw [eraseKey_eq_filter ha, eraseKey_eq_filter hb]
  have ha' : (keysOf (aFuncs.filter (fun kv => !decide (kv.1 = n)))).Nodup :=
    keysOf_filter_nodup _ ha
  have hb' : (keysOf (bFuncs.filter (fun kv => !decide (kv.1 = n)))).Nodup :=
    keysOf_filter_nodup _ hb
  rw [diffPair_char mode pkg aFuncs bFuncs ha hb,
    diffPair_char mode pkg _ _ ha' hb']
  have hclass : classifyLines mode aFuncs bFuncs
      = classifyLines mode (aFuncs.filter (fun kv => !decide (kv.1 = n)))
          (bFuncs.filter (fun kv => !decide (kv.1 = n))) := by
    unfold classifyLines
    have hstep1 : aFuncs.filterMap (fun nv => funcALine mode bFuncs nv.1 nv.2)
        = (aFuncs.filter (fun kv => !decide (kv.1 = n))).filterMap
            (fun nv => funcALine mode bFuncs nv.1 nv.2) := by
      apply filterMap_eq_filterMap_filter
      intro x hx hp
      have hxn : x.1 = n := by
        by_contra hc
        simp [hc] at hp
      have hxval : x.2 = asf := by
        have := lookupFn_of_mem_nodup ha (show (x.1, x.2) ∈ aFuncs from hx)
        rw [hxn, hma] at this
        exact (Option.some.inj this).symm
      simp [funcALine, hxn, hmb, hxval, hh]
    have hstep2 : (aFuncs.filter (fun kv => !decide (kv.1 = n))).filterMap
          (fun nv => funcALine mode bFuncs nv.1 nv.2)
        = (aFuncs.filter (fun kv => !decide (kv.1 = n))).filterMap
            (fun nv => funcALine mode (bFuncs.filter (fun kv => !decide (kv.1 = n))) nv.1 nv.2) := by
      apply List.filterMap_congr
      intro x hx
      have hxne : x.1 ≠ n := by
        have := (List.mem_filter.mp hx).2
        simpa using this
      have hlk : lookupFn x.1 (bFuncs.filter (fun kv => !decide (kv.1 = n)))
          = lookupFn x.1 bFuncs := lookupFn_filter_ne bFuncs hxne
      simp only [funcALine, hlk]
    have hleft : bLeftover aFuncs bFuncs
        = bLeftover (aFuncs.filter (fun kv => !decide (kv.1 = n)))
            (bFuncs.filter (fun kv => !decide (kv.1 = n))) := by
      unfold bLeftover
      rw [List.filter_filter]
      apply List.filter_congr
      intro kv _
      by_cases hk : kv.1 = n
      · have h2 : lookupFn n (aFuncs.filter (fun kv' => !decide (kv'.1 = n))) = none := by
          rw [lookupFn_eq_none]
          intro hc
          rcases List.mem_map.mp hc with ⟨x, hx, hxk⟩
          have hxf := (List.mem_filter.mp hx).2
          rw [hxk] at hxf
          simp at hxf
        simp [hk, hma, h2]
      · have h3 : lookupFn kv.1 (aFuncs.filter (fun kv' => !decide (kv'.1 = n)))
            = lookupFn kv.1 aFuncs := lookupFn_filter_ne aFuncs hk
        simp [h3, hk]
    rw [← hstep1.trans hstep2, hleft]
  refine ⟨?_, ?_, ?_⟩
  · rw [hclass]
  · have h1 : (aFuncs.map (fun nv => nv.2.textsize)).sum = sizeSum aFuncs := rfl
    have h2 : ((aFuncs.filter (fun kv => !decide (kv.1 = n))).map
        (fun nv => nv.2.textsize)).sum
        = sizeSum (aFuncs.filter (fun kv => !decide (kv.1 = n))) := rfl
    have h3 := sizeSum_split_of_lookup_some ha hma
    dsimp only
    omega
  · have h3 := sizeSum_split_of_lookup_some hb hmb
    dsimp only
    omega

/-- Witness for C1 at a concrete matched pair: one function `f` on both
sides with equal body hash and sizes 3 and 5. -/
theorem c1_witness :
    (diffPair ("all") (("p").toList) [(("f").toList, { textsize := 3, bodyhash := ['h'] })]
        [(("f").toList, { textsize := 5, bodyhash := ['h'] })]).lines
      = (diffPair ("all") (("p").toList)
          (eraseKey (("f").toList) [(("f").toList, { textsize := 3, bodyhash := ['h'] })])
          (eraseKey (("f").toList) [(("f").toList, { textsize := 5, bodyhash := ['h'] })])).lines
    ∧ (diffPair ("all") (("p").toList) [(("f").toList, { textsize := 3, bodyhash := ['h'] })]
        [(("f").toList, { textsize := 5, bodyhash := ['h'] })]).aTot
      = (diffPair ("all") (("p").toList)
          (eraseKey (("f").toList) [(("f").toList, { textsize := 3, bodyhash := ['h'] })])
          (eraseKey (("f").toList) [(("f").toList, { textsize := 5, bodyhash := ['h'] })])).aTot
        + ({ textsize := 3, bodyhash := ['h'] } : stextFunc).textsize
    ∧ (diffPair ("all") (("p").toList) [(("f").toList, { textsize := 3, bodyhash := ['h'] })]
        [(("f").toList, { textsize := 5, bodyhash := ['h'] })]).bTot
      = (diffPair ("all") (("p").toList)
          (eraseKey (("f").toList) [(("f").toList, { textsize := 3, bodyhash := ['h'] })])
          (eraseKey (("f").toList) [(("f").toList, { textsize := 5, bodyhash := ['h'] })])).bTot
        + ({ textsize := 5, bodyhash := ['h'] } : stextFunc).textsize :=
  c1_unchanged_never_shown_still_counted ("all") (("p").toList) (("f").toList)
    { textsize := 3, bodyhash := ['h'] } { textsize := 5, bodyhash := ['h'] }
    [(("f").toList, { textsize := 3, bodyhash := ['h'] })]
    [(("f").toList, { textsize := 5, bodyhash := ['h'] })]
    (by decide) (by decide) (by decide) (by decide) (by decide)


/-- C2 (code bug): the suppression tests in `compareFuncReaders` compare the
mode against `"better"` and `"worse"`, two values the `-fn` flag rejects, so
they can never fire: in mode `"smaller"` a function that *grew* (10 → 12,
different hashes) is still printed, and in mode `"bigger"` a function that
*shrank* (10 → 5) is still printed — contradicting the flag's own help text
("print only functions whose text size has gotten smaller/bigger"). -/
theorem c2_mode_filters_dead_eval :
    ("smaller") ∈ acceptedFnModes ∧ ("bigger") ∈ acceptedFnModes
    ∧ ("better") ∉ acceptedFnModes ∧ ("worse") ∉ acceptedFnModes
    ∧ (diffPair ("smaller") (("p").toList)
        [(("f").toList, { textsize := 10, bodyhash := ['x'] })]
        [(("f").toList, { textsize := 12, bodyhash := ['y'] })]).lines
      = [ReportLine.header (("p").toList),
         ReportLine.changedSize (("f").toList) 10 12 ansiFgRed]
    ∧ (diffPair ("bigger") (("p").toList)
        [(("f").toList, { textsize := 10, bodyhash := ['x'] })]
        [(("f").toList, { textsize := 5, bodyhash := ['y'] })]).lines
      = [ReportLine.header (("p").toList),
         ReportLine.changedSize (("f").toList) 10 5 ansiFgGreen] := by
  decide

/-- C7: `(*filesizes).add` drops a row with a zero-valued side entirely
(no totals, no display); otherwise it adds both sizes to the running totals
and writes a row exactly when the sizes differ, with delta `after − before`
and percentage exactly `100 * after / before − 100`. -/
theorem c7_filesizes_add_spec (s : filesizes) (name : Bytes) (beforeSize afterSize : Int) :
    ((beforeSize = 0 ∨ afterSize = 0) → filesizes.add s name beforeSize afterSize = s)
    ∧ (beforeSize ≠ 0 → afterSize ≠ 0 →
        (filesizes.add s name beforeSize afterSize).totbefore = s.totbefore + beforeSize
        ∧ (filesizes.add s name beforeSize afterSize).totafter = s.totafter + afterSize
        ∧ (beforeSize = afterSize → (filesizes.add s name beforeSize afterSize).rows = s.rows)
        ∧ (beforeSize ≠ afterSize →
            (filesizes.add s name beforeSize afterSize).rows =
              s.rows ++ [{ name := name, before := beforeSize, after := afterSize,
                           delta := afterSize - beforeSize,
                           pct := 100 * (afterSize : ℚ) / (beforeSize : ℚ) - 100 }])) := by
  constructor
  · intro h
    simp [filesizes.add, h]
  · intro hbz haz
    have hcond : ¬(beforeSize = 0 ∨ afterSize = 0) := by tauto
    refine ⟨?_, ?_, ?_, ?_⟩
    · by_cases heq : beforeSize = afterSize <;> simp [filesizes.add, hcond, heq, hbz, haz]
    · by_cases heq : beforeSize = afterSize <;> simp [filesizes.add, hcond, heq, hbz, haz]
    · intro heq
      simp [filesizes.add, hcond, heq, hbz, haz]
    · intro hne
      simp [filesizes.add, hcond, hne, hbz, haz]

/-- Witness for C7 at `before = 10`, `after = 12` on the empty aggregator. -/
theorem c7_witness :
    (filesizes.add { totbefore := 0, totafter := 0, haschange := false, rows := [] }
        (("x").toList) 10 12).rows =
      ({ totbefore := 0, totafter := 0, haschange := false, rows := [] } : filesizes).rows
        ++ [{ name := ("x").toList, before := 10, after := 12, delta := 12 - 10,
              pct := 100 * (12 : ℚ) / (10 : ℚ) - 100 }] :=
  (((c7_filesizes_add_spec { totbefore := 0, totafter := 0, haschange := false, rows := [] }
      (("x").toList) 10 12).2 (by decide) (by decide)).2.2.2) (by decide)

theorem count_filterMap {α β : Type} [DecidableEq β] (f : α → Option β) (y : β) (l : List α) :
    (l.filterMap f).count y = l.countP (fun x => f x == some y) := by
  induction l with
  | nil => rfl
  | cons a rest ih =>
    rw [List.filterMap_cons, List.countP_cons]
    cases hf : f a with
    | none =>
      rw [ih]
      simp [hf]
    | some b =>
      rw [List.count_cons, ih]
      simp [hf]
  
theorem countP_key_eq_one {β : Type} (l : List (Bytes × β)) (n : Bytes)
    (hnd : (keysOf l).Nodup) (hmem : n ∈ keysOf l) :
    l.countP (fun kv => kv.1 == n) = 1 := by
  induction l with
  | nil => cases hmem
  | cons kv rest ih =>
    simp only [keysOf, List.map_cons, List.nodup_cons] at hnd
    rw [List.countP_cons]
    by_cases hk : kv.1 = n
    · have hz : rest.countP (fun kv => kv.1 == n) = 0 := by
        rw [List.countP_eq_zero]
        intro x hx
        simp only [beq_iff_eq]
        intro hc
        exact hnd.1 (by rw [hk, ← hc]; exact List.mem_map_of_mem Prod.fst hx)
      simp [hz, hk]
    · have hm' : n ∈ keysOf rest := by
        rcases List.mem_cons.mp hmem with h | h
        · exact absurd h.symm hk
        · exact h
      rw [ih hnd.2 hm']
      simp [hk]

theorem funcALine_eq_deleted_iff (mode : String) (bF : List (Bytes × stextFunc))
    (name m : Bytes) (asf : stextFunc) :
    (funcALine mode bF name asf = some (ReportLine.deleted m))
      ↔ (lookupFn name bF = none ∧ mode ≠ "stats" ∧ name = m) := by
  unfold funcALine
  cases hl : lookupFn name bF with
  | none =>
    by_cases hm : mode = "stats" <;> simp [hm]
  | some bsf =>
    constructor
    · intro h
      by_cases h1 : asf.bodyhash = bsf.bodyhash
      · simp [h1] at h
      · by_cases h2 : asf.textsize = bsf.textsize
        · by_cases hm : mode = "all" <;> simp [h1, h2, hm] at h
        · by_cases h3 : asf.textsize < bsf.textsize
          · by_cases hc : mode = "better" ∨ mode = "stats" <;> simp [h1, h2, h3, hc] at h
          · by_cases hc : mode = "worse" ∨ mode = "stats" <;> simp [h1, h2, h3, hc] at h
    · rintro ⟨hc, -⟩
      exact Option.noConfusion hc

theorem funcALine_ne_inserted (mode : String) (bF : List (Bytes × stextFunc))
    (name m : Bytes) (asf : stextFunc) :
    funcALine mode bF name asf ≠ some (ReportLine.inserted m) := by
  unfold funcALine
  cases hl : lookupFn name bF with
  | none => by_cases hm : mode = "stats" <;> simp [hm]
  | some bsf =>
    intro h
    by_cases h1 : asf.bodyhash = bsf.bodyhash
    · simp [h1] at h
    · by_cases h2 : asf.textsize = bsf.textsize
      · by_cases hm : mode = "all" <;> simp [h1, h2, hm] at h
      · by_cases h3 : asf.textsize < bsf.textsize
        · by_cases hc : mode = "better" ∨ mode = "stats" <;> simp [h1, h2, h3, hc] at h
        · by_cases hc : mode = "worse" ∨ mode = "stats" <;> simp [h1, h2, h3, hc] at h

/-- C5: in a matched pair, a function name present on exactly one side is
classified exactly once — `DELETED` when only on the before side, `INSERTED`
when only on the after side — never both ways, never omitted; the line is
printed in every mode except `"stats"` (count 1), and suppressed in
`"stats"` (count 0). -/
theorem c5_one_side_classified_exactly_once
    (mode : String) (pkg : Bytes) (aFuncs bFuncs : List (Bytes × stextFunc))
    (ha : (keysOf aFuncs).Nodup) (hb : (keysOf bFuncs).Nodup) (n : Bytes) :
    ((n ∈ keysOf aFuncs ∧ lookupFn n bFuncs = none) →
        (diffPair mode pkg aFuncs bFuncs).lines.count (ReportLine.deleted n)
          = (if mode = "stats" then 0 else 1)
        ∧ (diffPair mode pkg aFuncs bFuncs).lines.count (ReportLine.inserted n) = 0)
    ∧ ((n ∈ keysOf bFuncs ∧ lookupFn n aFuncs = none) →
        (diffPair mode pkg aFuncs bFuncs).lines.count (ReportLine.inserted n)
          = (if mode = "stats" then 0 else 1)
        ∧ (diffPair mode pkg aFuncs bFuncs).lines.count (ReportLine.deleted n) = 0) := by
  rw [diffPair_char mode pkg aFuncs bFuncs ha hb]
  have hcnt : ∀ (x : ReportLine), (∀ q, x ≠ ReportLine.header q) →
      ((if classifyLines mode aFuncs bFuncs = [] then ([] : List ReportLine)
        else ReportLine.header pkg :: classifyLines mode aFuncs bFuncs)).count x
        = (classifyLines mode aFuncs bFuncs).count x := by
    intro x hx
    by_cases hL : classifyLines mode aFuncs bFuncs = []
    · simp [hL]
    · rw [if_neg hL, List.count_cons]
      have hne : (ReportLine.header pkg == x) = false := by
        simp only [beq_eq_false_iff_ne]
        exact fun hc => hx pkg hc.symm
      simp [hne]
  have hAins : (aFuncs.filterMap (fun nv => funcALine mode bFuncs nv.1 nv.2)).count
      (ReportLine.inserted n) = 0 := by
    rw [count_filterMap, List.countP_eq_zero]
    intro x hx
    simp only [beq_iff_eq]
    exact funcALine_ne_inserted mode bFuncs x.1 n x.2
  have hBdel : ((bLeftover aFuncs bFuncs).filterMap
      (fun kv => if mode = "stats" then none else some (ReportLine.inserted kv.1))).count
      (ReportLine.deleted n) = 0 := by
    rw [count_filterMap, List.countP_eq_zero]
    intro kv hkv
    by_cases hm : mode = "stats" <;> simp [hm]
  constructor
  · rintro ⟨hmemA, hnb⟩
    have hA : (aFuncs.filterMap (fun nv => funcALine mode bFuncs nv.1 nv.2)).count
        (ReportLine.deleted n) = (if mode = "stats" then 0 else 1) := by
      rw [count_filterMap]
      by_cases hm : mode = "stats"
      · rw [if_pos hm, List.countP_eq_zero]
        intro x hx
        simp only [beq_iff_eq]
        intro hc
        exact ((funcALine_eq_deleted_iff mode bFuncs x.1 n x.2).mp hc).2.1 hm
      · rw [if_neg hm]
        have hiff : ∀ x ∈ aFuncs,
            ((funcALine mode bFuncs x.1 x.2 == some (ReportLine.deleted n)) = true
              ↔ ((x.1 == n) = true)) := by
          intro x hx
          simp only [beq_iff_eq]
          constructor
          · intro hc
            exact ((funcALine_eq_deleted_iff mode bFuncs x.1 n x.2).mp hc).2.2
          · intro hc
            exact (funcALine_eq_deleted_iff mode bFuncs x.1 n x.2).mpr
              ⟨by rw [hc]; exact hnb, hm, hc⟩
        rw [List.countP_congr hiff]
        exact countP_key_eq_one aFuncs n ha hmemA
    have hBins0 : ((bLeftover aFuncs bFuncs).filterMap
        (fun kv => if mode = "stats" then none else some (ReportLine.inserted kv.1))).count
        (ReportLine.inserted n) = 0 := by
      rw [count_filterMap, List.countP_eq_zero]
      intro kv hkv
      by_cases hm : mode = "stats"
      · simp [hm]
      · simp only [hm, if_false, beq_iff_eq, Option.some.injEq, ReportLine.inserted.injEq]
        intro hc
        have hkb : kv ∈ bFuncs := (List.mem_filter.mp hkv).1
        have : n ∈ keysOf bFuncs := by
          rw [← hc]
          exact List.mem_map_of_mem Prod.fst hkb
        exact (lookupFn_eq_none.mp hnb) this
    constructor
    · rw [hcnt _ (fun q hc => ReportLine.noConfusion hc)]
      unfold classifyLines
      rw [List.count_append, hA, hBdel]
      omega
    · rw [hcnt _ (fun q hc => ReportLine.noConfusion hc)]
      unfold classifyLines
      rw [List.count_append, hAins, hBins0]
  · rintro ⟨hmemB, hna⟩
    have hBins : ((bLeftover aFuncs bFuncs).filterMap
        (fun kv => if mode = "stats" then none else some (ReportLine.inserted kv.1))).count
        (ReportLine.inserted n) = (if mode = "stats" then 0 else 1) := by
      rw [count_filterMap]
      by_cases hm : mode = "stats"
      · rw [if_pos hm, List.countP_eq_zero]
        intro kv hkv
        simp [hm]
      · rw [if_neg hm]
        have hiff : ∀ kv ∈ bLeftover aFuncs bFuncs,
            (((if mode = "stats" then none else some (ReportLine.inserted kv.1))
                == some (ReportLine.inserted n)) = true ↔ ((kv.1 == n) = true)) := by
          intro kv hkv
          simp [hm]
        rw [List.countP_congr hiff]
        apply countP_key_eq_one _ _ (keysOf_filter_nodup _ hb)
        rcases List.mem_map.mp hmemB with ⟨kv, hkv, hkn⟩
        have hmem2 : kv ∈ bFuncs.filter (fun kv => (lookupFn kv.1 aFuncs).isNone) := by
          rw [List.mem_filter]
          exact ⟨hkv, by rw [hkn, hna]; rfl⟩
        have hfst := List.mem_map_of_mem Prod.fst hmem2
        rw [hkn] at hfst
        exact hfst
    have hAdel0 : (aFuncs.filterMap (fun nv => funcALine mode bFuncs nv.1 nv.2)).count
        (ReportLine.deleted n) = 0 := by
      rw [count_filterMap, List.countP_eq_zero]
      intro x hx
      simp only [beq_iff_eq]
      intro hc
      have hxn : x.1 = n := ((funcALine_eq_deleted_iff mode bFuncs x.1 n x.2).mp hc).2.2
      have : n ∈ keysOf aFuncs := by
        rw [← hxn]
        exact List.mem_map_of_mem Prod.fst hx
      exact (lookupFn_eq_none.mp hna) this
    constructor
    · rw [hcnt _ (fun q hc => ReportLine.noConfusion hc)]
      unfold classifyLines
      rw [List.count_append, hAins, hBins]
      omega
    · rw [hcnt _ (fun q hc => ReportLine.noConfusion hc)]
      unfold classifyLines
      rw [List.count_append, hAdel0, hBdel]

/-- Witness for C5: package with `f` only on the before side and `g` only on
the after side, mode `"changed"`. -/
theorem c5_witness :
    (diffPair ("changed") (("p").toList)
        [(("f").toList, { textsize := 3, bodyhash := ['h'] })]
        [(("g").toList, { textsize := 4, bodyhash := ['k'] })]).lines.count
        (ReportLine.deleted (("f").toList))
      = (if ("changed" : String) = "stats" then 0 else 1)
    ∧ (diffPair ("changed") (("p").toList)
        [(("f").toList, { textsize := 3, bodyhash := ['h'] })]
        [(("g").toList, { textsize := 4, bodyhash := ['k'] })]).lines.count
        (ReportLine.inserted (("f").toList)) = 0 :=
  (c5_one_side_classified_exactly_once ("changed") (("p").toList)
    [(("f").toList, { textsize := 3, bodyhash := ['h'] })]
    [(("g").toList, { textsize := 4, bodyhash := ['k'] })]
    (by decide) (by decide) (("f").toList)).1 ⟨by decide, by decide⟩

theorem lookupFn_perm {β : Type} {l₁ l₂ : List (Bytes × β)} (hp : l₁.Perm l₂)
    (hnd : (keysOf l₁).Nodup) (k : Bytes) : lookupFn k l₁ = lookupFn k l₂ := by
  have hnd₂ : (keysOf l₂).Nodup := ((hp.map Prod.fst).nodup_iff).mp hnd
  cases h1 : lookupFn k l₁ with
  | none =>
    have hk : k ∉ keysOf l₁ := lookupFn_eq_none.mp h1
    have hk₂ : k ∉ keysOf l₂ := fun hc => hk ((hp.map Prod.fst).mem_iff.mpr hc)
    exact (lookupFn_eq_none.mpr hk₂).symm
  | some v =>
    have hmem : (k, v) ∈ l₂ := hp.mem_iff.mp (lookupFn_mem h1)
    exact (lookupFn_of_mem_nodup hnd₂ hmem).symm

/-- C9 counterexample: over the very same matched pair and mode `"all"`, two
runs that differ only in the order in which the before-side map is iterated
(both orders are legal iterations of one Go map, whose iteration order is
deliberately randomized) print the two changed-function lines in different
orders, so the report is not byte-identical across runs. -/
theorem c9_rerun_not_byte_identical :
    (diffPair ("all") (("p").toList)
      [(("f").toList, { textsize := 1, bodyhash := ['x'] }),
       (("g").toList, { textsize := 3, bodyhash := ['u'] })]
      [(("f").toList, { textsize := 2, bodyhash := ['y'] }),
       (("g").toList, { textsize := 4, bodyhash := ['v'] })]).lines ≠
    (diffPair ("all") (("p").toList)
      [(("g").toList, { textsize := 3, bodyhash := ['u'] }),
       (("f").toList, { textsize := 1, bodyhash := ['x'] })]
      [(("f").toList, { textsize := 2, bodyhash := ['y'] }),
       (("g").toList, { textsize := 4, bodyhash := ['v'] })]).lines := by
  decide

/-- C9 amended: the report for one matched pair is deterministic up to the
map iteration orders: permuting either side's iteration order permutes the
printed lines (same multiset, in particular the same set of lines and the
same lazily printed header) and leaves both totals — hence the aggregate
row — unchanged. -/
theorem c9_deterministic_up_to_iteration_order
    (mode : String) (pkg : Bytes) (a₁ a₂ b₁ b₂ : List (Bytes × stextFunc))
    (hpa : a₁.Perm a₂) (hpb : b₁.Perm b₂)
    (ha : (keysOf a₁).Nodup) (hb : (keysOf b₁).Nodup) :
    (diffPair mode pkg a₁ b₁).lines.Perm ((diffPair mode pkg a₂ b₂).lines)
    ∧ (diffPair mode pkg a₁ b₁).aTot = (diffPair mode pkg a₂ b₂).aTot
    ∧ (diffPair mode pkg a₁ b₁).bTot = (diffPair mode pkg a₂ b₂).bTot := by
  have ha₂ : (keysOf a₂).Nodup := ((hpa.map Prod.fst).nodup_iff).mp ha
  have hb₂ : (keysOf b₂).Nodup := ((hpb.map Prod.fst).nodup_iff).mp hb
  rw [diffPair_char mode pkg a₁ b₁ ha hb, diffPair_char mode pkg a₂ b₂ ha₂ hb₂]
  have hclass : (classifyLines mode a₁ b₁).Perm (classifyLines mode a₂ b₂) := by
    unfold classifyLines
    apply List.Perm.append
    · have hcongA : a₁.filterMap (fun nv => funcALine mode b₁ nv.1 nv.2)
          = a₁.filterMap (fun nv => funcALine mode b₂ nv.1 nv.2) := by
        apply List.filterMap_congr
        intro x hx
        have hlk := lookupFn_perm hpb hb x.1
        simp only [funcALine, hlk]
      rw [hcongA]
      exact List.Perm.filterMap _ hpa
    · have hcongB : b₁.filter (fun kv => (lookupFn kv.1 a₁).isNone)
          = b₁.filter (fun kv => (lookupFn kv.1 a₂).isNone) := by
        apply List.filter_congr
        intro kv hkv
        rw [lookupFn_perm hpa ha kv.1]
      unfold bLeftover
      rw [hcongB]
      exact List.Perm.filterMap _ (List.Perm.filter _ hpb)
  refine ⟨?_, ?_, ?_⟩
  · dsimp only
    by_cases hL : classifyLines mode a₁ b₁ = []
    · have hL₂ : classifyLines mode a₂ b₂ = [] := by
        rw [hL] at hclass
        exact (hclass.symm).eq_nil
      simp [hL, hL₂]
    · have hL₂ : classifyLines mode a₂ b₂ ≠ [] := by
        intro hc
        rw [hc] at hclass
        exact hL hclass.eq_nil
      rw [if_neg hL, if_neg hL₂]
      exact hclass.cons _
  · exact ((hpa.map (fun nv => nv.2.textsize)).sum_eq)
  · exact ((hpb.map (fun kv => kv.2.textsize)).sum_eq)

/-- Witness for the amended C9 at a concrete pair: the two iteration orders
of the counterexample above yield permuted lines and equal totals. -/
theorem c9_witness :
    (diffPair ("all") (("p").toList)
      [(("f").toList, { textsize := 1, bodyhash := ['x'] }),
       (("g").toList, { textsize := 3, bodyhash := ['u'] })]
      [(("f").toList, { textsize := 2, bodyhash := ['y'] }),
       (("g").toList, { textsize := 4, bodyhash := ['v'] })]).lines.Perm
      ((diffPair ("all") (("p").toList)
        [(("g").toList, { textsize := 3, bodyhash := ['u'] }),
         (("f").toList, { textsize := 1, bodyhash := ['x'] })]
        [(("f").toList, { textsize := 2, bodyhash := ['y'] }),
         (("g").toList, { textsize := 4, bodyhash := ['v'] })]).lines)
    ∧ (diffPair ("all") (("p").toList)
      [(("f").toList, { textsize := 1, bodyhash := ['x'] }),
       (("g").toList, { textsize := 3, bodyhash := ['u'] })]
      [(("f").toList, { textsize := 2, bodyhash := ['y'] }),
       (("g").toList, { textsize := 4, bodyhash := ['v'] })]).aTot
      = (diffPair ("all") (("p").toList)
        [(("g").toList, { textsize := 3, bodyhash := ['u'] }),
         (("f").toList, { textsize := 1, bodyhash := ['x'] })]
        [(("f").toList, { textsize := 2, bodyhash := ['y'] }),
         (("g").toList, { textsize := 4, bodyhash := ['v'] })]).aTot
    ∧ (diffPair ("all") (("p").toList)
      [(("f").toList, { textsize := 1, bodyhash := ['x'] }),
       (("g").toList, { textsize := 3, bodyhash := ['u'] })]
      [(("f").toList, { textsize := 2, bodyhash := ['y'] }),
       (("g").toList, { textsize := 4, bodyhash := ['v'] })]).bTot
      = (diffPair ("all") (("p").toList)
        [(("g").toList, { textsize := 3, bodyhash := ['u'] }),
         (("f").toList, { textsize := 1, bodyhash := ['x'] })]
        [(("f").toList, { textsize := 2, bodyhash := ['y'] }),
         (("g").toList, { textsize := 4, bodyhash := ['v'] })]).bTot :=
  c9_deterministic_up_to_iteration_order ("all") (("p").toList)
    [(("f").toList, { textsize := 1, bodyhash := ['x'] }),
     (("g").toList, { textsize := 3, bodyhash := ['u'] })]
    [(("g").toList, { textsize := 3, bodyhash := ['u'] }),
     (("f").toList, { textsize := 1, bodyhash := ['x'] })]
    [(("f").toList, { textsize := 2, bodyhash := ['y'] }),
     (("g").toList, { textsize := 4, bodyhash := ['v'] })]
    [(("f").toList, { textsize := 2, bodyhash := ['y'] }),
     (("g").toList, { textsize := 4, bodyhash := ['v'] })]
    (by decide) (by decide) (by decide) (by decide)

theorem lookupFn_map_name (k : Bytes) (l : List pkgScanner) :
    lookupFn k (l.map (fun p => (p.Name, p))) = l.find? (fun p => decide (p.Name = k)) := by
  induction l with
  | nil => rfl
  | cons p rest ih =>
    by_cases h : p.Name = k
    · rw [List.map_cons, List.find?_cons_of_pos _ (by simp [h])]
      simp [lookupFn, h]
    · rw [List.map_cons, List.find?_cons_of_neg _ (by simp [h])]
      simp only [lookupFn, if_neg h]
      exact ih

theorem find?_filter_of_imp {α : Type} {l : List α} {p q : α → Bool}
    (h : ∀ x ∈ l, p x = true → q x = true) : (l.filter q).find? p = l.find? p := by
  induction l with
  | nil => rfl
  | cons a rest ih =>
    have hrest : ∀ x ∈ rest, p x = true → q x = true :=
      fun x hx => h x (List.mem_cons_of_mem _ hx)
    by_cases hq : q a = true
    · rw [List.filter_cons, if_pos hq]
      by_cases hp : p a = true
      · rw [List.find?_cons_of_pos _ hp, List.find?_cons_of_pos _ hp]
      · rw [List.find?_cons_of_neg _ hp, List.find?_cons_of_neg _ hp]
        exact ih hrest
    · have hp : ¬ p a = true := fun hc => hq (h a (List.mem_cons_self _ _) hc)
      rw [List.filter_cons, if_neg hq, List.find?_cons_of_neg _ hp]
      exact ih hrest

theorem filterMap_update_perm {α β : Type} {l : List α} {f g : α → Option β} {x₀ : α} {y : β}
    (hnd : l.Nodup) (hmem : x₀ ∈ l) (hfx : f x₀ = none) (hgx : g x₀ = some y)
    (hother : ∀ x ∈ l, x ≠ x₀ → g x = f x) :
    (l.filterMap g).Perm (l.filterMap f ++ [y]) := by
  induction l with
  | nil => cases hmem
  | cons a rest ih =>
    rw [List.nodup_cons] at hnd
    rcases List.mem_cons.mp hmem with heq | hmem'
    · subst heq
      rw [List.filterMap_cons, List.filterMap_cons, hgx, hfx]
      have hrest : rest.filterMap g = rest.filterMap f := by
        apply List.filterMap_congr
        intro x hx
        refine hother x (List.mem_cons_of_mem _ hx) ?_
        intro hc
        rw [hc] at hx
        exact hnd.1 hx
      rw [hrest]
      exact (List.perm_append_singleton y _).symm
    · have ha : a ≠ x₀ := by
        intro hc
        rw [hc] at hnd
        exact hnd.1 hmem'
      rw [List.filterMap_cons, List.filterMap_cons,
        hother a (List.mem_cons_self _ _) ha]
      have hrec := ih hnd.2 hmem' (fun x hx hne => hother x (List.mem_cons_of_mem _ hx) hne)
      cases f a with
      | none => exact hrec
      | some b => exact hrec.cons b

theorem canonMatched_fst (dA dB : List pkgScanner) :
    (canonMatched dA dB).map Prod.fst
      = dA.filter (fun p => (dB.find? (fun q => decide (q.Name = p.Name))).isSome) := by
  induction dA with
  | nil => rfl
  | cons p rest ih =>
    unfold canonMatched at ih ⊢
    rw [List.filterMap_cons, List.filter_cons]
    cases hf : dB.find? (fun q => decide (q.Name = p.Name)) with
    | none =>
      rw [if_neg (by simp [hf])]
      exact ih
    | some q =>
      rw [if_pos (by simp [hf])]
      simp only [Option.map_some', List.map_cons, List.cons.injEq]
      exact ⟨trivial, ih⟩

theorem joinStepA_good (dA dB : List pkgScanner) (p : pkgScanner) (st : JoinState)
    (hA : (names (dA ++ [p])).Nodup) (hB : (names dB).Nodup)
    (hst : GoodJoin dA dB st) :
    GoodJoin (dA ++ [p]) dB (joinStep st (JEvent.fromA p)) := by
  obtain ⟨hsa, hsb, hsm⟩ := hst
  have hnames : names (dA ++ [p]) = names dA ++ [p.Name] := by simp [names]
  have hpA : p.Name ∉ names dA := by
    have h1 : (names dA ++ [p.Name]).Nodup := by rw [← hnames]; exact hA
    have h2 : (p.Name :: names dA).Nodup :=
      ((List.perm_append_singleton p.Name (names dA)).nodup_iff).mp h1
    exact (List.nodup_cons.mp h2).1
  have hlook : lookupFn p.Name st.bPkgs
      = (dB.filter (fun q => decide (q.Name ∉ names dA))).find?
          (fun q => decide (q.Name = p.Name)) := by
    rw [hsb]
    unfold canonB
    exact lookupFn_map_name p.Name _
  have hfind : (dB.filter (fun q => decide (q.Name ∉ names dA))).find?
        (fun q => decide (q.Name = p.Name))
      = dB.find? (fun q => decide (q.Name = p.Name)) := by
    apply find?_filter_of_imp
    intro q hq hqp
    simp only [decide_eq_true_eq] at hqp ⊢
    rw [hqp]
    exact hpA
  cases hf : dB.find? (fun q => decide (q.Name = p.Name)) with
  | some q =>
    have hqmem : q ∈ dB := List.mem_of_find?_eq_some hf
    have hqname : q.Name = p.Name := by
      have := List.find?_some hf
      simpa using this
    have hstep : joinStep st (JEvent.fromA p)
        = { st with bPkgs := eraseKey p.Name st.bPkgs,
                    matched := st.matched ++ [(p, q)] } := by
      unfold joinStep
      dsimp only
      rw [hlook, hfind, hf]
    rw [hstep]
    refine ⟨?_, ?_, ?_⟩
    · show st.aPkgs = canonA (dA ++ [p]) dB
      rw [hsa]
      unfold canonA
      rw [List.filter_append]
      have hdrop : List.filter (fun r => decide (r.Name ∉ names dB)) [p] = [] := by
        have hpB : p.Name ∈ names dB := by
          rw [← hqname]
          exact List.mem_map_of_mem _ hqmem
        simp [hpB]
      rw [hdrop, List.append_nil]
    · show eraseKey p.Name st.bPkgs = canonB (dA ++ [p]) dB
      rw [hsb]
      unfold canonB
      have hkeysB : (keysOf ((dB.filter (fun q => decide (q.Name ∉ names dA))).map
          (fun q => (q.Name, q)))).Nodup := by
        have hk : keysOf ((dB.filter (fun q => decide (q.Name ∉ names dA))).map
            (fun q => (q.Name, q)))
            = (dB.filter (fun q => decide (q.Name ∉ names dA))).map pkgScanner.Name := by
          unfold keysOf
          rw [List.map_map]
          rfl
        rw [hk]
        exact List.Nodup.sublist (List.Sublist.map _ (List.filter_sublist dB)) hB
      rw [eraseKey_eq_filter hkeysB, List.filter_map, List.filter_filter]
      congr 1
      apply List.filter_congr
      intro q' hq'
      by_cases hqp : q'.Name = p.Name
      · simp [hnames, hqp]
      · simp [hnames, hqp]
    · show (st.matched ++ [(p, q)]).Perm (canonMatched (dA ++ [p]) dB)
      have hexp : canonMatched (dA ++ [p]) dB = canonMatched dA dB ++ [(p, q)] := by
        unfold canonMatched
        rw [List.filterMap_append]
        have h1 : List.filterMap
            (fun r => (dB.find? (fun s => decide (s.Name = r.Name))).map (fun s => (r, s))) [p]
            = [(p, q)] := by
          simp [hf]
        rw [h1]
      rw [hexp]
      exact hsm.append_right _
  | none =>
    have hpB : p.Name ∉ names dB := by
      intro hc
      rcases List.mem_map.mp hc with ⟨q, hq, hqn⟩
      have := List.find?_eq_none.mp hf q hq
      simp [hqn] at this
    have hlooknone : lookupFn p.Name st.bPkgs = none := by rw [hlook, hfind, hf]
    have hstep : joinStep st (JEvent.fromA p)
        = { st with aPkgs := mapInsert p.Name p st.aPkgs } := by
      unfold joinStep
      dsimp only
      rw [hlooknone]
    rw [hstep]
    refine ⟨?_, ?_, ?_⟩
    · show mapInsert p.Name p st.aPkgs = canonA (dA ++ [p]) dB
      rw [hsa]
      have hkeysA : keysOf (canonA dA dB)
          = (dA.filter (fun r => decide (r.Name ∉ names dB))).map pkgScanner.Name := by
        unfold canonA keysOf
        rw [List.map_map]
        rfl
      have hfresh : p.Name ∉ keysOf (canonA dA dB) := by
        rw [hkeysA]
        intro hc
        rcases List.mem_map.mp hc with ⟨r, hr, hrn⟩
        have hrA : r ∈ dA := (List.mem_filter.mp hr).1
        exact hpA (by rw [← hrn]; exact List.mem_map_of_mem _ hrA)
      rw [mapInsert_of_not_mem hfresh]
      unfold canonA
      rw [List.filter_append]
      have hpkeep : List.filter (fun r => decide (r.Name ∉ names dB)) [p] = [p] := by
        simp [hpB]
      rw [hpkeep, List.map_append]
      rfl
    · show st.bPkgs = canonB (dA ++ [p]) dB
      rw [hsb]
      unfold canonB
      congr 1
      apply List.filter_congr
      intro q hq
      have hqp : q.Name ≠ p.Name := by
        intro hc
        exact hpB (by rw [← hc]; exact List.mem_map_of_mem _ hq)
      simp [hnames, hqp]
    · show st.matched.Perm (canonMatched (dA ++ [p]) dB)
      have hexp : canonMatched (dA ++ [p]) dB = canonMatched dA dB := by
        unfold canonMatched
        rw [List.filterMap_append]
        have h1 : List.filterMap
            (fun r => (dB.find? (fun s => decide (s.Name = r.Name))).map (fun s => (r, s))) [p]
            = [] := by
          simp [hf]
        rw [h1, List.append_nil]
      rw [hexp]
      exact hsm

theorem joinStepB_good (dA dB : List pkgScanner) (q : pkgScanner) (st : JoinState)
    (hA : (names dA).Nodup) (hB : (names (dB ++ [q])).Nodup)
    (hst : GoodJoin dA dB st) :
    GoodJoin dA (dB ++ [q]) (joinStep st (JEvent.fromB q)) := by
  obtain ⟨hsa, hsb, hsm⟩ := hst
  have hnames : names (dB ++ [q]) = names dB ++ [q.Name] := by simp [names]
  have hqB : q.Name ∉ names dB := by
    have h1 : (names dB ++ [q.Name]).Nodup := by rw [← hnames]; exact hB
    have h2 : (q.Name :: names dB).Nodup :=
      ((List.perm_append_singleton q.Name (names dB)).nodup_iff).mp h1
    exact (List.nodup_cons.mp h2).1
  have hlook : lookupFn q.Name st.aPkgs
      = (dA.filter (fun r => decide (r.Name ∉ names dB))).find?
          (fun r => decide (r.Name = q.Name)) := by
    rw [hsa]
    unfold canonA
    exact lookupFn_map_name q.Name _
  have hfind : (dA.filter (fun r => decide (r.Name ∉ names dB))).find?
        (fun r => decide (r.Name = q.Name))
      = dA.find? (fun r => decide (r.Name = q.Name)) := by
    apply find?_filter_of_imp
    intro r hr hrq
    simp only [decide_eq_true_eq] at hrq ⊢
    rw [hrq]
    exact hqB
  cases hf : dA.find? (fun r => decide (r.Name = q.Name)) with
  | some p₀ =>
    have hpmem : p₀ ∈ dA := List.mem_of_find?_eq_some hf
    have hpname : p₀.Name = q.Name := by
      have := List.find?_some hf
      simpa using this
    have hp₀B : p₀.Name ∉ names dB := by rw [hpname]; exact hqB
    have hstep : joinStep st (JEvent.fromB q)
        = { st with aPkgs := eraseKey q.Name st.aPkgs,
                    matched := st.matched ++ [(p₀, q)] } := by
      unfold joinStep
      dsimp only
      rw [hlook, hfind, hf]
    rw [hstep]
    refine ⟨?_, ?_, ?_⟩
    · show eraseKey q.Name st.aPkgs = canonA dA (dB ++ [q])
      rw [hsa]
      unfold canonA
      have hkeysA : (keysOf ((dA.filter (fun r => decide (r.Name ∉ names dB))).map
          (fun r => (r.Name, r)))).Nodup := by
        have hk : keysOf ((dA.filter (fun r => decide (r.Name ∉ names dB))).map
            (fun r => (r.Name, r)))
            = (dA.filter (fun r => decide (r.Name ∉ names dB))).map pkgScanner.Name := by
          unfold keysOf
          rw [List.map_map]
          rfl
        rw [hk]
        exact List.Nodup.sublist (List.Sublist.map _ (List.filter_sublist dA)) hA
      rw [eraseKey_eq_filter hkeysA, List.filter_map, List.filter_filter]
      congr 1
      apply List.filter_congr
      intro r hr
      by_cases hrq : r.Name = q.Name
      · simp [hnames, hrq]
      · simp [hnames, hrq]
    · show st.bPkgs = canonB dA (dB ++ [q])
      rw [hsb]
      unfold canonB
      rw [List.filter_append]
      have hdrop : List.filter (fun s => decide (s.Name ∉ names dA)) [q] = [] := by
        have hqA : q.Name ∈ names dA := by
          rw [← hpname]
          exact List.mem_map_of_mem _ hpmem
        simp [hqA]
      rw [hdrop, List.append_nil]
    · show (st.matched ++ [(p₀, q)]).Perm (canonMatched dA (dB ++ [q]))
      have hfx : dB.find? (fun s => decide (s.Name = p₀.Name)) = none := by
        rw [List.find?_eq_none]
        intro s hs
        simp only [decide_eq_true_eq]
        intro hc
        exact hp₀B (by rw [← hc]; exact List.mem_map_of_mem _ hs)
      have hfx' : (dB.find? (fun s => decide (s.Name = p₀.Name))).map
          (fun s => (p₀, s)) = none := by
        rw [hfx]
        rfl
      have hgx' : ((dB ++ [q]).find? (fun s => decide (s.Name = p₀.Name))).map
          (fun s => (p₀, s)) = some (p₀, q) := by
        rw [List.find?_append, hfx]
        have hq1 : [q].find? (fun s => decide (s.Name = p₀.Name)) = some q := by
          simp [hpname]
        rw [hq1]
        rfl
      have hother : ∀ r ∈ dA, r ≠ p₀ →
          ((dB ++ [q]).find? (fun s => decide (s.Name = r.Name))).map (fun s => (r, s))
          = (dB.find? (fun s => decide (s.Name = r.Name))).map (fun s => (r, s)) := by
        intro r hr hne
        rw [List.find?_append]
        cases hdb : dB.find? (fun s => decide (s.Name = r.Name)) with
        | some s => rfl
        | none =>
          have hqr : q.Name ≠ r.Name := by
            intro hc
            apply hne
            apply List.inj_on_of_nodup_map hA hr hpmem
            rw [← hc, hpname]
          have hq1 : [q].find? (fun s => decide (s.Name = r.Name)) = none := by
            simp [hqr]
          rw [hq1]
          rfl
      have hperm2 : (canonMatched dA (dB ++ [q])).Perm (canonMatched dA dB ++ [(p₀, q)]) := by
        unfold canonMatched
        exact filterMap_update_perm (List.Nodup.of_map pkgScanner.Name hA) hpmem hfx' hgx'
          hother
      exact (hsm.append_right _).trans hperm2.symm
  | none =>
    have hqA : q.Name ∉ names dA := by
      intro hc
      rcases List.mem_map.mp hc with ⟨r, hr, hrn⟩
      have := List.find?_eq_none.mp hf r hr
      simp [hrn] at this
    have hlooknone : lookupFn q.Name st.aPkgs = none := by rw [hlook, hfind, hf]
    have hstep : joinStep st (JEvent.fromB q)
        = { st with bPkgs := mapInsert q.Name q st.bPkgs } := by
      unfold joinStep
      dsimp only
      rw [hlooknone]
    rw [hstep]
    refine ⟨?_, ?_, ?_⟩
    · show st.aPkgs = canonA dA (dB ++ [q])
      rw [hsa]
      unfold canonA
      congr 1
      apply List.filter_congr
      intro r hr
      have hrq : r.Name ≠ q.Name := by
        intro hc
        exact hqA (by rw [← hc]; exact List.mem_map_of_mem _ hr)
      simp [hnames, hrq]
    · show mapInsert q.Name q st.bPkgs = canonB dA (dB ++ [q])
      rw [hsb]
      have hkeysB : keysOf (canonB dA dB)
          = (dB.filter (fun s => decide (s.Name ∉ names dA))).map pkgScanner.Name := by
        unfold canonB keysOf
        rw [List.map_map]
        rfl
      have hfresh : q.Name ∉ keysOf (canonB dA dB) := by
        rw [hkeysB]
        intro hc
        rcases List.mem_map.mp hc with ⟨s, hs, hsn⟩
        have hsB : s ∈ dB := (List.mem_filter.mp hs).1
        exact hqB (by rw [← hsn]; exact List.mem_map_of_mem _ hsB)
      rw [mapInsert_of_not_mem hfresh]
      unfold canonB
      rw [List.filter_append]
      have hqkeep : List.filter (fun s => decide (s.Name ∉ names dA)) [q] = [q] := by
        simp [hqA]
      rw [hqkeep, List.map_append]
      rfl
    · show st.matched.Perm (canonMatched dA (dB ++ [q]))
      have hexp : canonMatched dA (dB ++ [q]) = canonMatched dA dB := by
        unfold canonMatched
        apply List.filterMap_congr
        intro r hr
        rw [List.find?_append]
        cases hdb : dB.find? (fun s => decide (s.Name = r.Name)) with
        | some s => rfl
        | none =>
          have hqr : q.Name ≠ r.Name := by
            intro hc
            exact hqA (by rw [hc]; exact List.mem_map_of_mem _ hr)
          have hq1 : [q].find? (fun s => decide (s.Name = r.Name)) = none := by
            simp [hqr]
          rw [hq1]
          rfl
      rw [hexp]
      exact hsm

theorem joinRun_good (ev : List JEvent) (as bs : List pkgScanner)
    (h : IsInterleaving as bs ev) :
    ∀ (dA dB : List pkgScanner) (st : JoinState),
      (names (dA ++ as)).Nodup → (names (dB ++ bs)).Nodup →
      GoodJoin dA dB st →
      GoodJoin (dA ++ as) (dB ++ bs) (ev.foldl joinStep st) := by
  induction h with
  | nil =>
    intro dA dB st hA hB hst
    simpa using hst
  | @consA p as' bs' ev' hrec ih =>
    intro dA dB st hA hB hst
    rw [List.foldl_cons]
    have hsubA : (names (dA ++ [p])).Sublist (names (dA ++ p :: as')) := by
      unfold names
      apply List.Sublist.map
      apply List.Sublist.append_left
      exact List.singleton_sublist.mpr (List.mem_cons_self _ _)
    have hA1 : (names (dA ++ [p])).Nodup := List.Nodup.sublist hsubA hA
    have hBsub : (names dB).Sublist (names (dB ++ bs')) := by
      unfold names
      apply List.Sublist.map
      exact List.sublist_append_left _ _
    have hB1 : (names dB).Nodup := List.Nodup.sublist hBsub hB
    have hstep := joinStepA_good dA dB p st hA1 hB1 hst
    have hA2 : (names ((dA ++ [p]) ++ as')).Nodup := by
      rw [List.append_assoc]
      simpa using hA
    have hres := ih (dA ++ [p]) dB (joinStep st (JEvent.fromA p)) hA2 hB hstep
    have hrw : (dA ++ [p]) ++ as' = dA ++ p :: as' := by
      rw [List.append_assoc]
      rfl
    rw [hrw] at hres
    exact hres
  | @consB q as' bs' ev' hrec ih =>
    intro dA dB st hA hB hst
    rw [List.foldl_cons]
    have hsubB : (names (dB ++ [q])).Sublist (names (dB ++ q :: bs')) := by
      unfold names
      apply List.Sublist.map
      apply List.Sublist.append_left
      exact List.singleton_sublist.mpr (List.mem_cons_self _ _)
    have hB1 : (names (dB ++ [q])).Nodup := List.Nodup.sublist hsubB hB
    have hAsub : (names dA).Sublist (names (dA ++ as')) := by
      unfold names
      apply List.Sublist.map
      exact List.sublist_append_left _ _
    have hA1 : (names dA).Nodup := List.Nodup.sublist hAsub hA
    have hstep := joinStepB_good dA dB q st hA1 hB1 hst
    have hB2 : (names ((dB ++ [q]) ++ bs')).Nodup := by
      rw [List.append_assoc]
      simpa using hB
    have hres := ih dA (dB ++ [q]) (joinStep st (JEvent.fromB q)) hA hB2 hstep
    have hrw : (dB ++ [q]) ++ bs' = dB ++ q :: bs' := by
      rw [List.append_assoc]
      rfl
    rw [hrw] at hres
    exact hres

theorem runJoin_good (ev : List JEvent) (as bs : List pkgScanner)
    (h : IsInterleaving as bs ev)
    (ha : (names as).Nodup) (hb : (names bs).Nodup) :
    GoodJoin as bs (runJoin ev) :=
  joinRun_good ev as bs h [] [] { aPkgs := [], bPkgs := [], matched := [] }
    ha hb ⟨rfl, rfl, List.Perm.refl []⟩

theorem canonMatched_mem {as bs : List pkgScanner} {pr : pkgScanner × pkgScanner}
    (hmem : pr ∈ canonMatched as bs) :
    pr.1.Name = pr.2.Name ∧ pr.1 ∈ as ∧ pr.2 ∈ bs := by
  unfold canonMatched at hmem
  rcases List.mem_filterMap.mp hmem with ⟨r, hr, hres⟩
  cases hf : bs.find? (fun s => decide (s.Name = r.Name)) with
  | none => rw [hf] at hres; cases hres
  | some s =>
    rw [hf] at hres
    have hpr : pr = (r, s) := by
      have := hres
      simpa using this.symm
    have hsname : s.Name = r.Name := by
      have := List.find?_some hf
      simpa using this
    rw [hpr]
    exact ⟨hsname.symm, hr, List.mem_of_find?_eq_some hf⟩

theorem canonMatched_names (as bs : List pkgScanner) :
    (canonMatched as bs).map (fun pr => pr.1.Name)
      = (as.filter (fun p => (bs.find? (fun q => decide (q.Name = p.Name))).isSome)).map
          pkgScanner.Name := by
  have h1 : (canonMatched as bs).map (fun pr => pr.1.Name)
      = ((canonMatched as bs).map Prod.fst).map pkgScanner.Name := by
    rw [List.map_map]
    rfl
  rw [h1, canonMatched_fst]

theorem canonMatched_names_iff (as bs : List pkgScanner) (n : Bytes) :
    n ∈ (canonMatched as bs).map (fun pr => pr.1.Name)
      ↔ (n ∈ names as ∧ n ∈ names bs) := by
  rw [canonMatched_names]
  constructor
  · intro hmem
    rcases List.mem_map.mp hmem with ⟨r, hr, hrn⟩
    have hra : r ∈ as := (List.mem_filter.mp hr).1
    have hsome := (List.mem_filter.mp hr).2
    simp only [List.find?_isSome] at hsome
    rcases hsome with ⟨s, hs, hsn⟩
    simp only [decide_eq_true_eq] at hsn
    constructor
    · rw [← hrn]
      exact List.mem_map_of_mem _ hra
    · rw [← hrn, ← hsn]
      exact List.mem_map_of_mem _ hs
  · rintro ⟨hna, hnb⟩
    rcases List.mem_map.mp hna with ⟨r, hr, hrn⟩
    rcases List.mem_map.mp hnb with ⟨s, hs, hsn⟩
    apply List.mem_map.mpr
    refine ⟨r, ?_, hrn⟩
    rw [List.mem_filter]
    refine ⟨hr, ?_⟩
    simp only [List.find?_isSome]
    exact ⟨s, hs, by simp [hsn, hrn]⟩

theorem canonMatched_names_nodup (as bs : List pkgScanner) (ha : (names as).Nodup) :
    ((canonMatched as bs).map (fun pr => pr.1.Name)).Nodup := by
  rw [canonMatched_names]
  exact List.Nodup.sublist (List.Sublist.map _ (List.filter_sublist as)) ha

theorem canonA_keys (as bs : List pkgScanner) :
    keysOf (canonA as bs)
      = (as.filter (fun r => decide (r.Name ∉ names bs))).map pkgScanner.Name := by
  unfold canonA keysOf
  rw [List.map_map]
  rfl

theorem canonB_keys (as bs : List pkgScanner) :
    keysOf (canonB as bs)
      = (bs.filter (fun s => decide (s.Name ∉ names as))).map pkgScanner.Name := by
  unfold canonB keysOf
  rw [List.map_map]
  rfl

theorem canonA_keys_iff (as bs : List pkgScanner) (n : Bytes) :
    n ∈ keysOf (canonA as bs) ↔ (n ∈ names as ∧ n ∉ names bs) := by
  rw [canonA_keys]
  constructor
  · intro h
    rcases List.mem_map.mp h with ⟨r, hr, hrn⟩
    have hra := (List.mem_filter.mp hr).1
    have hpred := (List.mem_filter.mp hr).2
    simp only [decide_eq_true_eq] at hpred
    refine ⟨by rw [← hrn]; exact List.mem_map_of_mem _ hra, by rw [← hrn]; exact hpred⟩
  · rintro ⟨hna, hnb⟩
    rcases List.mem_map.mp hna with ⟨r, hr, hrn⟩
    apply List.mem_map.mpr
    refine ⟨r, ?_, hrn⟩
    rw [List.mem_filter]
    refine ⟨hr, ?_⟩
    simp only [decide_eq_true_eq]
    rw [hrn]
    exact hnb

theorem canonB_keys_iff (as bs : List pkgScanner) (n : Bytes) :
    n ∈ keysOf (canonB as bs) ↔ (n ∈ names bs ∧ n ∉ names as) := by
  rw [canonB_keys]
  constructor
  · intro h
    rcases List.mem_map.mp h with ⟨s, hs, hsn⟩
    have hsb := (List.mem_filter.mp hs).1
    have hpred := (List.mem_filter.mp hs).2
    simp only [decide_eq_true_eq] at hpred
    refine ⟨by rw [← hsn]; exact List.mem_map_of_mem _ hsb, by rw [← hsn]; exact hpred⟩
  · rintro ⟨hnb, hna⟩
    rcases List.mem_map.mp hnb with ⟨s, hs, hsn⟩
    apply List.mem_map.mpr
    refine ⟨s, ?_, hsn⟩
    rw [List.mem_filter]
    refine ⟨hs, ?_⟩
    simp only [decide_eq_true_eq]
    rw [hsn]
    exact hna

/-- C3: for any two interleavings of the same two package streams (package
names unique per stream, as Go package paths are), the merge-join loop of
`compareFuncReaders` produces the same matched pairs up to processing order:
exactly one pair per name common to both streams, with the before record
first, the after record second and equal names; consequently the per-package
`sizes.add` totals are the same multiset for every interleaving. -/
theorem c3_merge_join_order_independent (as bs : List pkgScanner)
    (ev₁ ev₂ : List JEvent)
    (h₁ : IsInterleaving as bs ev₁) (h₂ : IsInterleaving as bs ev₂)
    (ha : (names as).Nodup) (hb : (names bs).Nodup) :
    (runJoin ev₁).matched.Perm ((runJoin ev₂).matched)
    ∧ (∀ pr ∈ (runJoin ev₁).matched, pr.1.Name = pr.2.Name ∧ pr.1 ∈ as ∧ pr.2 ∈ bs)
    ∧ ((runJoin ev₁).matched.map (fun pr => pr.1.Name)).Nodup
    ∧ (∀ n, n ∈ (runJoin ev₁).matched.map (fun pr => pr.1.Name)
          ↔ (n ∈ names as ∧ n ∈ names bs))
    ∧ (∀ mode : String,
        ((runJoin ev₁).matched.map (fun pr =>
          (pr.1.Name, (diffPair mode pr.1.Name pr.1.Funcs pr.2.Funcs).aTot,
           (diffPair mode pr.1.Name pr.1.Funcs pr.2.Funcs).bTot))).Perm
        ((runJoin ev₂).matched.map (fun pr =>
          (pr.1.Name, (diffPair mode pr.1.Name pr.1.Funcs pr.2.Funcs).aTot,
           (diffPair mode pr.1.Name pr.1.Funcs pr.2.Funcs).bTot)))) := by
  have g₁ := runJoin_good ev₁ as bs h₁ ha hb
  have g₂ := runJoin_good ev₂ as bs h₂ ha hb
  have hm₁ := g₁.2.2
  have hm₂ := g₂.2.2
  have hperm : (runJoin ev₁).matched.Perm ((runJoin ev₂).matched) := hm₁.trans hm₂.symm
  refine ⟨hperm, ?_, ?_, ?_, ?_⟩
  · intro pr hpr
    exact canonMatched_mem (hm₁.mem_iff.mp hpr)
  · exact ((hm₁.map (fun pr => pr.1.Name)).nodup_iff).mpr (canonMatched_names_nodup as bs ha)
  · intro n
    rw [(hm₁.map (fun pr => pr.1.Name)).mem_iff]
    exact canonMatched_names_iff as bs n
  · intro mode
    exact hperm.map _

/-- Witness for C3: one package name `p` on both sides, observed in the two
possible arrival orders. -/
theorem c3_witness :
    (runJoin [JEvent.fromA { Name := ['p'], Funcs := [], Hash := [], stext := [] },
              JEvent.fromB { Name := ['p'],
                             Funcs := [(['f'], { textsize := 2, bodyhash := ['h'] })],
                             Hash := [], stext := [] }]).matched.Perm
      ((runJoin [JEvent.fromB { Name := ['p'],
                                Funcs := [(['f'], { textsize := 2, bodyhash := ['h'] })],
                                Hash := [], stext := [] },
                 JEvent.fromA { Name := ['p'], Funcs := [], Hash := [], stext := [] }]).matched) :=
  (c3_merge_join_order_independent
    [{ Name := ['p'], Funcs := [], Hash := [], stext := [] }]
    [{ Name := ['p'], Funcs := [(['f'], { textsize := 2, bodyhash := ['h'] })],
       Hash := [], stext := [] }]
    [JEvent.fromA { Name := ['p'], Funcs := [], Hash := [], stext := [] },
     JEvent.fromB { Name := ['p'], Funcs := [(['f'], { textsize := 2, bodyhash := ['h'] })],
                    Hash := [], stext := [] }]
    [JEvent.fromB { Name := ['p'], Funcs := [(['f'], { textsize := 2, bodyhash := ['h'] })],
                    Hash := [], stext := [] },
     JEvent.fromA { Name := ['p'], Funcs := [], Hash := [], stext := [] }]
    (IsInterleaving.consA (IsInterleaving.consB IsInterleaving.nil))
    (IsInterleaving.consB (IsInterleaving.consA IsInterleaving.nil))
    (by decide) (by decide)).1

/-- C4: packages present on only one side never abort the comparison: the
merge-join loop is a total function whose final pending maps hold exactly the
one-sided packages (which the loop tail then reports with `log.Printf`, not
`log.Fatalf`), they are disjoint from every matched pair, and a matched pair
exists for exactly every name present on both sides, so per-function diffing
completes for all matched packages. -/
theorem c4_one_sided_packages_informational (as bs : List pkgScanner)
    (ev : List JEvent) (h : IsInterleaving as bs ev)
    (ha : (names as).Nodup) (hb : (names bs).Nodup) :
    (runJoin ev).aPkgs = canonA as bs
    ∧ (runJoin ev).bPkgs = canonB as bs
    ∧ (∀ n, n ∈ keysOf (runJoin ev).aPkgs ↔ (n ∈ names as ∧ n ∉ names bs))
    ∧ (∀ n, n ∈ keysOf (runJoin ev).bPkgs ↔ (n ∈ names bs ∧ n ∉ names as))
    ∧ (∀ n, n ∈ (runJoin ev).matched.map (fun pr => pr.1.Name)
          ↔ (n ∈ names as ∧ n ∈ names bs)) := by
  have g := runJoin_good ev as bs h ha hb
  refine ⟨g.1, g.2.1, ?_, ?_, ?_⟩
  · intro n
    rw [g.1]
    exact canonA_keys_iff as bs n
  · intro n
    rw [g.2.1]
    exact canonB_keys_iff as bs n
  · intro n
    rw [(g.2.2.map (fun pr => pr.1.Name)).mem_iff]
    exact canonMatched_names_iff as bs n

/-- Witness for C4: package `p` arrives only on the before side; the run
completes and leaves it pending on the before side. -/
theorem c4_witness :
    (runJoin [JEvent.fromA { Name := ['p'], Funcs := [], Hash := [], stext := [] }]).aPkgs
      = canonA [{ Name := ['p'], Funcs := [], Hash := [], stext := [] }] [] :=
  (c4_one_sided_packages_informational
    [{ Name := ['p'], Funcs := [], Hash := [], stext := [] }] []
    [JEvent.fromA { Name := ['p'], Funcs := [], Hash := [], stext := [] }]
    (IsInterleaving.consA IsInterleaving.nil)
    (by decide) (by decide)).1

/-- C6 (code bug): a recognized summary header (contains `" STEXT "`) whose
`" size="` field is missing does not always abort: `extractNameAndSize` never
checks `strings.Index` for `-1`, so `stext[i+len(" size="):]` silently
becomes `stext[5:]` and the line `foo 12345 STEXT x` yields a bogus record
`(foo, 5)` instead of a fatal error; the whole scan then succeeds.  (An
unparsable integer after a present `" size="` does abort, as the claim says:
third conjunct.) -/
theorem c6_missing_size_field_not_fatal :
    extractNameAndSize (("foo 12345 STEXT x").toList)
      = Except.ok ((("foo").toList), 5)
    ∧ scanDashS (("x1").toList) [("# p").toList, ("foo 12345 STEXT x").toList]
      = Except.ok [{ Name := ("p").toList,
                     Funcs := [(("foo").toList, { textsize := 5, bodyhash := [] })],
                     Hash := [], stext := [] }]
    ∧ extractNameAndSize (("foo STEXT dupok size=abc args").toList)
      = Except.error ScanErr.atoiFail := by
  decide

/-- C8 counterexample: relocation-reference lines are *not* excluded or
substituted before hashing — the scanner writes them to the digest verbatim
(the `dashSInstructionDump` / `"\trel "` checks of the older variant guard
only the unused stored body, after the hash writes).  Two streams identical
except for a relocation address produce different `bodyhash`es. -/
theorem c8_rel_lines_hashed_verbatim :
    scanDashS (("x1").toList)
      [("# p").toList, ("f STEXT size=8 a").toList,
       ('\t' :: ("rel 2+4 t=1 foo+10").toList)]
      = Except.ok [{ Name := ("p").toList,
                     Funcs := [(("f").toList,
                       { textsize := 8,
                         bodyhash := '\t' :: ("rel 2+4 t=1 foo+10").toList ++ ['\n'] })],
                     Hash := [], stext := [] }]
    ∧ scanDashS (("x1").toList)
        [("# p").toList, ("f STEXT size=8 a").toList,
         ('\t' :: ("rel 2+4 t=1 foo+10").toList)]
      ≠ scanDashS (("x1").toList)
        [("# p").toList, ("f STEXT size=8 a").toList,
         ('\t' :: ("rel 2+4 t=1 foo+20").toList)] := by
  decide

/-- C8 amended: the only normalization applied to a function-body line before
it is mixed into the digest is the substitution of the per-build sha token by
`"SHA"` (`bytes.ReplaceAll` in `scanDashS`): every indented line reaches the
digest exactly as `ReplaceAll(b, sha, "SHA")` followed by a newline, with
address/byte-dump and relocation lines included verbatim. -/
theorem c8_token_substitution_only (sha b : Bytes) (s : pkgScanner)
    (ht : (replaceAll b sha (("SHA").toList)).head? = some '\t') :
    s.ProcessLine (replaceAll b sha (("SHA").toList))
      = Except.ok { s with
          Hash := s.Hash ++ replaceAll b sha (("SHA").toList) ++ ['\n'] } := by
  cases hr : replaceAll b sha (("SHA").toList) with
  | nil => rw [hr] at ht; cases ht
  | cons c rest =>
    rw [hr] at ht
    have hc : c = '\t' := by simpa using ht
    simp [pkgScanner.ProcessLine, hc]

/-- Witness for the amended C8: the sha token inside an instruction line is
substituted and the result — nothing else — is appended to the digest. -/
theorem c8_witness :
    pkgScanner.ProcessLine { Name := ['p'], Funcs := [], Hash := ['o'], stext := [] }
      (replaceAll (('\t' :: ("mov x1, 8").toList)) (("x1").toList) (("SHA").toList))
      = Except.ok { Name := ['p'], Funcs := [],
                    Hash := ['o'] ++ replaceAll (('\t' :: ("mov x1, 8").toList))
                      (("x1").toList) (("SHA").toList) ++ ['\n'],
                    stext := [] } :=
  c8_token_substitution_only (("x1").toList) (('\t' :: ("mov x1, 8").toList))
    { Name := ['p'], Funcs := [], Hash := ['o'], stext := [] } (by decide)

theorem extractNameAndSize_ne_ioor (t : Bytes) :
    extractNameAndSize t ≠ Except.error ScanErr.indexOutOfRange := by
  unfold extractNameAndSize
  dsimp only
  (repeat' split) <;> try simp
  all_goals
    rename_i heq
    (repeat' split at heq) <;>
      first
        | (cases heq; simp_all)
        | cases heq

theorem flush_ne_ioor (s : pkgScanner) :
    s.flush ≠ Except.error ScanErr.indexOutOfRange := by
  unfold pkgScanner.flush
  by_cases hc : s.stext ≠ [] ∧ containsSub s.stext ((" STEXT ").toList)
  · rw [if_pos hc]
    cases he : extractNameAndSize s.stext with
    | error e =>
      dsimp only
      intro hcontra
      apply extractNameAndSize_ne_ioor s.stext
      rw [he]
      injection hcontra with h
      rw [h]
    | ok nv => simp
  · rw [if_neg hc]
    simp

theorem replaceAll_ne_nil (b old new : Bytes) (hb : b ≠ []) (hn : new ≠ []) :
    replaceAll b old new ≠ [] := by
  unfold replaceAll
  by_cases ho : old = []
  · rw [if_pos ho]
    cases new with
    | nil => exact absurd rfl hn
    | cons n ns => simp
  · rw [if_neg ho]
    cases b with
    | nil => exact absurd rfl hb
    | cons c rest =>
      unfold replaceAllAux
      by_cases hp : old.isPrefixOf (c :: rest)
      · rw [if_pos hp]
        cases new with
        | nil => exact absurd rfl hn
        | cons n ns => simp
      · rw [if_neg hp]
        simp

theorem ProcessLine_ne_ioor (s : pkgScanner) (b : Bytes) (hb : b ≠ []) :
    s.ProcessLine b ≠ Except.error ScanErr.indexOutOfRange := by
  cases b with
  | nil => exact absurd rfl hb
  | cons c rest =>
    unfold pkgScanner.ProcessLine
    dsimp only
    by_cases hc : c ≠ '\t'
    · rw [if_pos hc]
      cases hf : s.flush with
      | error e =>
        intro hcontra
        apply flush_ne_ioor s
        rw [hf]
        exact hcontra
      | ok s' => simp
    · rw [if_neg hc]
      simp

theorem scanLines_ne_ioor (sha : Bytes) : ∀ (lines : List Bytes) (cur : Option pkgScanner)
    (out : List pkgScanner),
    scanLines sha lines cur out ≠ Except.error ScanErr.indexOutOfRange := by
  intro lines
  induction lines with
  | nil =>
    intro cur out
    simp [scanLines]
  | cons b rest ih =>
    intro cur out
    unfold scanLines
    by_cases hb : b = []
    · rw [if_pos hb]
      exact ih cur out
    · rw [if_neg hb]
      by_cases hm : b.take 2 = ['#', ' ']
      · rw [if_pos hm]
        cases cur with
        | none => exact ih _ _
        | some s =>
          dsimp only
          cases hf : s.flush with
          | error e =>
            show Except.error e ≠ Except.error ScanErr.indexOutOfRange
            intro hcontra
            injection hcontra with h
            exact flush_ne_ioor s (by rw [hf, h])
          | ok s' => exact ih _ _
      · rw [if_neg hm]
        cases cur with
        | none => exact ih _ _
        | some s =>
          dsimp only
          cases hp : s.ProcessLine (replaceAll b sha (("SHA").toList)) with
          | error e =>
            show Except.error e ≠ Except.error ScanErr.indexOutOfRange
            intro hcontra
            injection hcontra with h
            exact ProcessLine_ne_ioor s (replaceAll b sha (("SHA").toList))
              (replaceAll_ne_nil b sha (("SHA").toList) hb (by decide)) (by rw [hp, h])
          | ok s' => exact ih _ _

theorem scanLines_skip_empty (sha : Bytes) : ∀ (lines : List Bytes) (cur : Option pkgScanner)
    (out : List pkgScanner),
    scanLines sha (lines.filter (fun b => !b.isEmpty)) cur out = scanLines sha lines cur out := by
  intro lines
  induction lines with
  | nil =>
    intro cur out
    rfl
  | cons b rest ih =>
    intro cur out
    by_cases hb : b = []
    · subst hb
      rw [List.filter_cons, if_neg (by simp)]
      have hr : scanLines sha ([] :: rest) cur out = scanLines sha rest cur out := by
        simp [scanLines]
      rw [hr]
      exact ih cur out
    · rw [List.filter_cons, if_pos (by simp [hb])]
      unfold scanLines
      rw [if_neg hb, if_neg hb]
      by_cases hm : b.take 2 = ['#', ' ']
      · rw [if_pos hm, if_pos hm]
        cases cur with
        | none => exact ih _ _
        | some s =>
          dsimp only
          cases s.flush with
          | error e => rfl
          | ok s' => exact ih _ _
      · rw [if_neg hm, if_neg hm]
        cases cur with
        | none => exact ih _ _
        | some s =>
          dsimp only
          cases s.ProcessLine (replaceAll b sha (("SHA").toList)) with
          | error e => rfl
          | ok s' => exact ih _ _

/-- C10: `scanDashS` skips every empty line before the unguarded `b[0]`
accesses, so the modelled index-out-of-range panic can never occur on any
input (first conjunct; the third conjunct shows `ProcessLine` itself *would*
panic on an empty line, so the guard is what protects it), and inserting or
removing blank lines leaves the scan — packages, sizes and digests —
unchanged (second conjunct). -/
theorem c10_blank_lines_never_panic_nor_hash (sha : Bytes) (lines : List Bytes) :
    scanDashS sha lines ≠ Except.error ScanErr.indexOutOfRange
    ∧ scanDashS sha (lines.filter (fun b => !b.isEmpty)) = scanDashS sha lines
    ∧ (∀ s : pkgScanner, s.ProcessLine [] = Except.error ScanErr.indexOutOfRange) := by
  refine ⟨scanLines_ne_ioor sha _ _ _, ?_, fun s => rfl⟩
  unfold scanDashS
  have hlist : ((lines.filter (fun b => !b.isEmpty)) ++ [[], ("# EOF").toList]).filter
      (fun b => !b.isEmpty)
      = (lines ++ [[], ("# EOF").toList]).filter (fun b => !b.isEmpty) := by
    rw [List.filter_append, List.filter_append, List.filter_filter]
    congr 1
    apply List.filter_congr
    intro x hx
    rw [Bool.and_self]
  rw [← scanLines_skip_empty sha ((lines.filter (fun b => !b.isEmpty)) ++ [[], ("# EOF").toList])
      none [],
    ← scanLines_skip_empty sha (lines ++ [[], ("# EOF").toList]) none [], hlist]
